import Mathlib

/-!
Verification development for the boxworld voxel engine.

Shallow embedding conventions:
* JavaScript numbers are idealized as rationals (`ℚ`) where the code computes
  with fractional values, and as `ℤ` where the code only ever passes integers.
* `Uint8Array` cells are modelled as `Fin 256` (reads are always in `[0, 256)`,
  writes wrap modulo 256).
* The JS `Map` keyed by the string "cx,cz" is modelled as an association list
  keyed by the pair `(cx, cz)`; the string key is injective in the pair, `set`
  of a fresh key appends (JS insertion order), `delete` removes the entry.
* Scene side effects (adding/removing mesh geometry) are modelled by a trace
  of `SceneEvent`s returned alongside the new state; a chunk additionally
  stores its current mesh face lists.
* The terrain generator's height function and tree test are floating-point /
  transcendental (`Math.sin`-based hash, gradient noise); they enter the world
  code only as black boxes, so world operations are parameterized by an
  arbitrary `height : ℤ → ℤ → ℤ` and `tree : ℤ → ℤ → Bool`.  The gradient
  noise itself (`noise.js`) is embedded separately over `ℚ`, with the seeded
  permutation table abstracted to an arbitrary table, which covers every seed.
-/

namespace BoxWorld

/-! ## Block types (chunk.js) -/

def CHUNK_SIZE : ℤ := 16

def CHUNK_HEIGHT : ℤ := 64

/-- Block type IDs from `BLOCKS` in chunk.js.  Block values are carried as `ℤ`
so that the out-of-range sentinel `-1` lives in the same type. -/
def BLOCKS_AIR : ℤ := 0

def BLOCKS_GRASS : ℤ := 1

def BLOCKS_DIRT : ℤ := 2

def BLOCKS_STONE : ℤ := 3

def BLOCKS_WOOD : ℤ := 4

def BLOCKS_LEAVES : ℤ := 5

def BLOCKS_SAND : ℤ := 6

def BLOCKS_WATER : ℤ := 7

/-- The list of valid block codes (the values of the `BLOCKS` table). -/
def blockCodes : List ℤ := [0, 1, 2, 3, 4, 5, 6, 7]

/-- Transparency set from chunk.js: `TRANSPARENT = new Set([AIR, WATER])`. -/
def TRANSPARENT (b : ℤ) : Bool := decide (b = 0 ∨ b = 7)

/-- A face emitted by mesh extraction, identified by the local voxel
coordinates and the index of its direction in the `FACES` table.  The vertex
positions, colors and triangle indices derived from it are renderer payload
that no claim mentions, so they are not carried. -/
def Face : Type := (ℤ × ℤ × ℤ) × Fin 6

instance : DecidableEq Face := by
  unfold Face
  infer_instance

/-- Direction vectors of the six entries of the `FACES` table, in table
order: top, bottom, -x, +x, -z, +z. -/
def faceDirs : Fin 6 → ℤ × ℤ × ℤ
  | 0 => (0, 1, 0)
  | 1 => (0, -1, 0)
  | 2 => (-1, 0, 0)
  | 3 => (1, 0, 0)
  | 4 => (0, 0, -1)
  | 5 => (0, 0, 1)

/-- Scene side effects of mesh building and disposal, keyed by chunk
coordinate. -/
inductive SceneEvent : Type where
  | built : ℤ × ℤ → SceneEvent
  | disposed : ℤ × ℤ → SceneEvent
deriving DecidableEq

/-! ## Chunk (chunk.js) -/

/-- Wrap an integer into a `Uint8Array` cell. -/
def toByte (t : ℤ) : Fin 256 := ⟨(t % 256).toNat, by omega⟩

/-- A chunk: coordinate pair, dense `16×64×16` voxel store, and the current
opaque and water mesh face lists (`null` when absent, as in the code). -/
structure Chunk : Type where
  cx : ℤ
  cz : ℤ
  data : Nat → Fin 256
  mesh : Option (List Face)
  waterMesh : Option (List Face)

/-- Flat index into the voxel store: `x + CHUNK_SIZE * (y + CHUNK_HEIGHT * z)`. -/
def Chunk.index (x y z : ℤ) : ℤ := x + 16 * (y + 64 * z)

/-- Predicate for the bounds test used by `getBlock` / `setBlock`. -/
def Chunk.inBounds (x y z : ℤ) : Prop :=
  0 ≤ x ∧ x < 16 ∧ 0 ≤ y ∧ y < 64 ∧ 0 ≤ z ∧ z < 16

instance (x y z : ℤ) : Decidable (Chunk.inBounds x y z) := by
  unfold Chunk.inBounds
  infer_instance

/-- Bounds-checked read; out-of-range coordinates return the sentinel `-1`. -/
def Chunk.getBlock (c : Chunk) (x y z : ℤ) : ℤ :=
  if Chunk.inBounds x y z then ((c.data (Chunk.index x y z).toNat : ℕ) : ℤ)
  else -1

/-- Bounds-checked write; out-of-range coordinates are a no-op. -/
def Chunk.setBlock (c : Chunk) (x y z t : ℤ) : Chunk :=
  if Chunk.inBounds x y z then
    { c with data := fun i => if i = (Chunk.index x y z).toNat then toByte t else c.data i }
  else c

/-- Neighbor resolution in `buildMesh`: a neighbor that is horizontally
outside the chunk goes through the injected lookup at world coordinates;
otherwise (including vertically out-of-range neighbors) `getBlock` is used
locally. -/
def resolveNeighbor (c : Chunk) (lookup : ℤ → ℤ → ℤ → ℤ) (nx ny nz : ℤ) : ℤ :=
  if nx < 0 ∨ 16 ≤ nx ∨ nz < 0 ∨ 16 ≤ nz then
    lookup (c.cx * 16 + nx) ny (c.cz * 16 + nz)
  else c.getBlock nx ny nz

/-- Face-emission test of `buildMesh`, mirroring the two `continue` guards:
for water, skip unless the neighbor is exactly AIR; for other blocks, skip
when the neighbor is non-transparent and not the sentinel `-1`. -/
def emitFace (block neighbor : ℤ) : Bool :=
  if block = 7 then decide (neighbor = 0)
  else !(!TRANSPARENT neighbor && decide (neighbor ≠ -1))

/-- All faces emitted by one `buildMesh` traversal, in traversal order
(`z` outer, then `y`, then `x`, then `FACES` order).  The code routes each
face into the opaque or the water buffer; the two buffers are recovered
below as the two filtered subsequences. -/
def emittedFaces (c : Chunk) (lookup : ℤ → ℤ → ℤ → ℤ) : List Face :=
  (List.range 16).flatMap fun z =>
    (List.range 64).flatMap fun y =>
      (List.range 16).flatMap fun x =>
        if c.getBlock (x : ℤ) (y : ℤ) (z : ℤ) = 0 then []
        else
          (List.finRange 6).filterMap fun i =>
            if emitFace (c.getBlock (x : ℤ) (y : ℤ) (z : ℤ))
                (resolveNeighbor c lookup ((x : ℤ) + (faceDirs i).1)
                  ((y : ℤ) + (faceDirs i).2.1) ((z : ℤ) + (faceDirs i).2.2)) then
              some (((x : ℤ), (y : ℤ), (z : ℤ)), i)
            else none

/-- The water-buffer subsequence of the emitted faces. -/
def waterFaces (c : Chunk) (lookup : ℤ → ℤ → ℤ → ℤ) : List Face :=
  (emittedFaces c lookup).filter fun f => decide (c.getBlock f.1.1 f.1.2.1 f.1.2.2 = 7)

/-- The opaque-buffer subsequence of the emitted faces. -/
def opaqueFaces (c : Chunk) (lookup : ℤ → ℤ → ℤ → ℤ) : List Face :=
  (emittedFaces c lookup).filter fun f => !decide (c.getBlock f.1.1 f.1.2.1 f.1.2.2 = 7)

/-- Rebuild the chunk's meshes from its voxel data and a neighbor lookup.
As in the code, a buffer is only created when at least one face was emitted
(`vertCount > 0`); the scene effect is recorded as one `built` event. -/
def Chunk.buildMesh (c : Chunk) (lookup : ℤ → ℤ → ℤ → ℤ) : Chunk × List SceneEvent :=
  let op := opaqueFaces c lookup
  let wa := waterFaces c lookup
  ({ c with
      mesh := if op.isEmpty then none else some op
      waterMesh := if wa.isEmpty then none else some wa },
   [SceneEvent.built (c.cx, c.cz)])

/-- Release both mesh buffers. -/
def Chunk.disposeMesh (c : Chunk) : Chunk × List SceneEvent :=
  ({ c with mesh := none, waterMesh := none }, [SceneEvent.disposed (c.cx, c.cz)])

/-! ## Terrain generation (terrain.js), parameterized by the height function
and the tree test (both are floating-point computations in the source). -/

def SEA_LEVEL : ℤ := 12

def STONE_DEPTH : ℤ := 4

/-- Block classification of the first generation pass for a column of
terrain height `terrainH`, at height `y` (the if-chain of `generateChunk`). -/
def terrainBlock (terrainH y : ℤ) : ℤ :=
  if y = 0 then 3
  else if y < terrainH - 4 then 3
  else if y < terrainH then 2
  else if y = terrainH then (if terrainH ≤ 13 then 6 else 1)
  else if y ≤ 12 then 7
  else 0

/-- Integer interval `[0, n)` as a list, for mirroring `for` loops. -/
def intRange (n : Nat) : List ℤ := (List.range n).map fun i => (i : ℤ)

/-- Place a tree at local coordinates: a 4-block trunk of WOOD, a 5×5×3 LEAVES
canopy with trimmed corners, and a top cap.  Out-of-chunk writes are dropped
by the `setBlock` bounds check, exactly as in the code. -/
def placeTree (c : Chunk) (x y z : ℤ) : Chunk :=
  let c1 := (intRange 4).foldl (fun acc i => acc.setBlock x (y + i) z 4) c
  let top := y + 4
  let c2 := ([-1, 0, 1] : List ℤ).foldl
    (fun acc dy =>
      ([-2, -1, 0, 1, 2] : List ℤ).foldl
        (fun acc2 dx =>
          ([-2, -1, 0, 1, 2] : List ℤ).foldl
            (fun acc3 dz =>
              if |dx| = 2 ∧ |dz| = 2 then acc3
              else acc3.setBlock (x + dx) (top + dy) (z + dz) 5)
            acc2)
        acc)
    c1
  c2.setBlock x (top + 2) z 5

/-- Fill a chunk from the terrain generator: first pass writes the terrain
column classification for every voxel, second pass places trees on columns
with `terrainH > SEA_LEVEL + 2` selected by the tree test.  The height cache
of the code is an evaluation-count optimization with no semantic content. -/
def generateChunk (height : ℤ → ℤ → ℤ) (tree : ℤ → ℤ → Bool) (c : Chunk) : Chunk :=
  let h := fun (x z : ℤ) => height (c.cx * 16 + x) (c.cz * 16 + z)
  let c1 := (intRange 16).foldl
    (fun acc z =>
      (intRange 16).foldl
        (fun acc2 x =>
          (intRange 64).foldl
            (fun acc3 y => acc3.setBlock x y z (terrainBlock (h x z) y))
            acc2)
        acc)
    c
  (intRange 16).foldl
    (fun acc z =>
      (intRange 16).foldl
        (fun acc2 x =>
          if h x z > 14 ∧ tree (c.cx * 16 + x) (c.cz * 16 + z) then
            placeTree acc2 x (h x z + 1) z
          else acc2)
        acc)
    c1

/-! ## World (world.js) -/

def RENDER_DISTANCE : ℤ := 4

/-- The world: chunk registry plus the last streaming-scan center.  The JS
`null` initial values of `_lastPCX`/`_lastPCZ` are `none`. -/
structure World : Type where
  chunks : List ((ℤ × ℤ) × Chunk)
  lastPCX : Option ℤ
  lastPCZ : Option ℤ

/-- The empty world (fresh `new World(scene)`). -/
def World.empty : World := ⟨[], none, none⟩

/-- Registry lookup by chunk coordinate (`getChunk`, `null` as `none`). -/
def World.getChunk (w : World) (cx cz : ℤ) : Option Chunk :=
  (w.chunks.find? fun e => decide (e.1 = (cx, cz))).map (·.2)

/-- Containing chunk coordinate of a world coordinate:
`Math.floor(wx / CHUNK_SIZE)`. -/
def World.chunkOf (wx : ℤ) : ℤ := ⌊(wx : ℚ) / 16⌋

/-- Local coordinate of a world coordinate: the non-negative modulo
`((wx % CHUNK_SIZE) + CHUNK_SIZE) % CHUNK_SIZE`, with the JS `%` embedded as
the truncated remainder `Int.tmod`. -/
def World.localOf (wx : ℤ) : ℤ := ((wx.tmod 16) + 16).tmod 16

/-- World-coordinate block read: AIR for an unloaded chunk, else delegate to
the owning chunk at local coordinates. -/
def World.getBlockWorld (w : World) (wx wy wz : ℤ) : ℤ :=
  match w.getChunk (World.chunkOf wx) (World.chunkOf wz) with
  | none => 0
  | some c => c.getBlock (World.localOf wx) wy (World.localOf wz)

/-- Replace the chunk stored under `key`, keeping its position in insertion
order (the JS code mutates the stored chunk object in place). -/
def World.replaceChunk (w : World) (key : ℤ × ℤ) (c : Chunk) : World :=
  { w with chunks := w.chunks.map fun e => if e.1 = key then (key, c) else e }

/-- Load a chunk: no-op when present; otherwise generate voxels, insert the
chunk, and build its mesh with the world lookup (which already sees the new
chunk, since the code inserts before building). -/
def World.loadChunk (height : ℤ → ℤ → ℤ) (tree : ℤ → ℤ → Bool) (w : World) (cx cz : ℤ) :
    World × List SceneEvent :=
  if (w.getChunk cx cz).isSome then (w, [])
  else
    let c1 := generateChunk height tree ⟨cx, cz, fun _ => (0 : Fin 256), none, none⟩
    let w1 : World := { w with chunks := w.chunks ++ [((cx, cz), c1)] }
    let r := c1.buildMesh fun wx wy wz => w1.getBlockWorld wx wy wz
    (w1.replaceChunk (cx, cz) r.1, r.2)

/-- Unload a chunk: dispose its meshes and remove its registry entry. -/
def World.unloadChunk (w : World) (cx cz : ℤ) : World × List SceneEvent :=
  match w.getChunk cx cz with
  | none => (w, [])
  | some _ =>
      ({ w with chunks := w.chunks.filter fun e => !decide (e.1 = (cx, cz)) },
       [SceneEvent.disposed (cx, cz)])

/-- Scan offsets `-RENDER_DISTANCE .. RENDER_DISTANCE`. -/
def scanOffsets : List ℤ := [-4, -3, -2, -1, 0, 1, 2, 3, 4]

/-- The load double-loop of `update`, `dx` outer and `dz` inner. -/
def scanPairs : List (ℤ × ℤ) :=
  scanOffsets.flatMap fun dx => scanOffsets.map fun dz => (dx, dz)

/-- The load double-loop of `update`: load every chunk of the scan square
around the center, accumulating scene events. -/
def World.loadSquare (height : ℤ → ℤ → ℤ) (tree : ℤ → ℤ → Bool) (w : World) (pcx pcz : ℤ) :
    World × List SceneEvent :=
  scanPairs.foldl
    (fun acc p =>
      let r := World.loadChunk height tree acc.1 (pcx + p.1) (pcz + p.2)
      (r.1, acc.2 ++ r.2))
    (w, ([] : List SceneEvent))

/-- Retention test of the unload loop: a chunk is kept unless it is farther
than `RENDER_DISTANCE + 1` from the center on either axis (tested on the
chunk's own `cx`/`cz` fields, as the code does). -/
def keepChunk (pcx pcz : ℤ) (e : (ℤ × ℤ) × Chunk) : Bool :=
  decide (|e.2.cx - pcx| ≤ 5 ∧ |e.2.cz - pcz| ≤ 5)

/-- The unload loop of `update`: remove (and dispose) every chunk out of
retention range.  The JS loop deletes entries of the `Map` while iterating
it, which visits each remaining entry exactly once, so it is equivalent to
this filter. -/
def World.unloadFar (w : World) (pcx pcz : ℤ) : World × List SceneEvent :=
  ({ w with chunks := w.chunks.filter (keepChunk pcx pcz) },
   (w.chunks.filter fun e => !keepChunk pcx pcz e).map
     fun e => SceneEvent.disposed (e.2.cx, e.2.cz))

/-- Per-frame streaming scan (`update(px, pz)`): derive the containing chunk
coordinate of the observer; when it equals the last scan center do nothing;
otherwise record the new center, load every chunk within Chebyshev radius
`RENDER_DISTANCE`, then unload every chunk farther than `RENDER_DISTANCE + 1`. -/
def World.update (height : ℤ → ℤ → ℤ) (tree : ℤ → ℤ → Bool) (w : World) (px pz : ℚ) :
    World × List SceneEvent :=
  let pcx : ℤ := ⌊px / 16⌋
  let pcz : ℤ := ⌊pz / 16⌋
  if w.lastPCX = some pcx ∧ w.lastPCZ = some pcz then (w, [])
  else
    let w0 : World := { w with lastPCX := some pcx, lastPCZ := some pcz }
    let r1 := World.loadSquare height tree w0 pcx pcz
    let r2 := World.unloadFar r1.1 pcx pcz
    (r2.1, r1.2 ++ r2.2)

/-- World-coordinate block write: silent no-op when the owning chunk is
unloaded; otherwise write the voxel, rebuild the chunk's mesh, and rebuild
each loaded orthogonal neighbor whose shared border the voxel touches. -/
def World.setBlockWorld (w : World) (wx wy wz t : ℤ) : World × List SceneEvent :=
  let cx := World.chunkOf wx
  let cz := World.chunkOf wz
  match w.getChunk cx cz with
  | none => (w, [])
  | some c =>
      let lx := World.localOf wx
      let lz := World.localOf wz
      let c1 := c.setBlock lx wy lz t
      let w1 := w.replaceChunk (cx, cz) c1
      let r := c1.buildMesh fun a b d => w1.getBlockWorld a b d
      let w2 := w1.replaceChunk (cx, cz) r.1
      let rb := fun (acc : World × List SceneEvent) (a b : ℤ) (doIt : Bool) =>
        if doIt then
          match acc.1.getChunk a b with
          | none => acc
          | some cn =>
              let rn := cn.buildMesh fun u v d => acc.1.getBlockWorld u v d
              (acc.1.replaceChunk (a, b) rn.1, acc.2 ++ rn.2)
        else acc
      let s0 := (w2, r.2)
      let s1 := rb s0 (cx - 1) cz (decide (lx = 0))
      let s2 := rb s1 (cx + 1) cz (decide (lx = 15))
      let s3 := rb s2 cx (cz - 1) (decide (lz = 0))
      rb s3 cx (cz + 1) (decide (lz = 15))

/-- Key/field consistency of the registry: every entry is stored under the
chunk's own coordinates.  The code maintains this by construction; the
streaming scan relies on it (it unloads by `chunk.cx`/`chunk.cz`). -/
def World.WF (w : World) : Prop :=
  ∀ e ∈ w.chunks, e.1 = (e.2.cx, e.2.cz)

/-- A chunk holding a single STONE voxel at local (0,63,0), the top of the
chunk; flat index 0 + 16*(63 + 64*0) = 1008.  Concrete test fixture. -/
def stoneTopChunk : Chunk :=
  ⟨0, 0, fun i => if i = 1008 then (3 : Fin 256) else (0 : Fin 256), none, none⟩

/-! ## Player (player.js): collision.  Positions and velocities are rationals
(idealized JS numbers). -/

/-- A 3D vector of rationals. -/
structure V3 : Type where
  x : ℚ
  y : ℚ
  z : ℚ
deriving DecidableEq

def PLAYER_HEIGHT : ℚ := 17 / 10

def PLAYER_WIDTH : ℚ := 2 / 5

/-- Player state relevant to physics: position, velocity, grounded flag. -/
structure PlayerState : Type where
  pos : V3
  vel : V3
  onGround : Bool
deriving DecidableEq

/-- The three movement axes of the axis-separated collision pass. -/
inductive Axis : Type where
  | x
  | y
  | z
deriving DecidableEq

/-- Probe offsets of `collideAxis`, in code order: for the vertical axis the
four horizontal corners at feet and head height (feet/head interleaved per
corner); for each horizontal axis both side offsets at integer height steps
`0 .. ceil(PLAYER_HEIGHT)`. -/
def collideOffsets (axis : Axis) : List (ℚ × ℚ × ℚ) :=
  match axis with
  | Axis.y =>
      [(-(PLAYER_WIDTH / 2), 0, -(PLAYER_WIDTH / 2)),
       (-(PLAYER_WIDTH / 2), PLAYER_HEIGHT, -(PLAYER_WIDTH / 2)),
       (PLAYER_WIDTH / 2, 0, -(PLAYER_WIDTH / 2)),
       (PLAYER_WIDTH / 2, PLAYER_HEIGHT, -(PLAYER_WIDTH / 2)),
       (-(PLAYER_WIDTH / 2), 0, PLAYER_WIDTH / 2),
       (-(PLAYER_WIDTH / 2), PLAYER_HEIGHT, PLAYER_WIDTH / 2),
       (PLAYER_WIDTH / 2, 0, PLAYER_WIDTH / 2),
       (PLAYER_WIDTH / 2, PLAYER_HEIGHT, PLAYER_WIDTH / 2)]
  | Axis.x =>
      [(PLAYER_WIDTH / 2, 0, 0), (-(PLAYER_WIDTH / 2), 0, 0),
       (PLAYER_WIDTH / 2, 1, 0), (-(PLAYER_WIDTH / 2), 1, 0),
       (PLAYER_WIDTH / 2, 2, 0), (-(PLAYER_WIDTH / 2), 2, 0)]
  | Axis.z =>
      [(0, 0, PLAYER_WIDTH / 2), (0, 0, -(PLAYER_WIDTH / 2)),
       (0, 1, PLAYER_WIDTH / 2), (0, 1, -(PLAYER_WIDTH / 2)),
       (0, 2, PLAYER_WIDTH / 2), (0, 2, -(PLAYER_WIDTH / 2))]

/-- The solidity test of the collision loop:
`block !== AIR && block !== WATER && block > 0`. -/
def isSolidBlock (b : ℤ) : Bool := decide (b ≠ 0 ∧ b ≠ 7 ∧ 0 < b)

/-- The block probed at a given offset from the player position. -/
def probeBlock (w : World) (st : PlayerState) (off : ℚ × ℚ × ℚ) : ℤ :=
  w.getBlockWorld ⌊st.pos.x + off.1⌋ ⌊st.pos.y + off.2.1⌋ ⌊st.pos.z + off.2.2⌋

/-- Collision response at the first solid probe: clamp the position to the
solid voxel's boundary on the relevant axis and zero that axis's velocity;
a downward vertical resolution additionally sets the grounded flag. -/
def collideResponse (axis : Axis) (st : PlayerState) (off : ℚ × ℚ × ℚ)
    (bx byv bz : ℤ) : PlayerState :=
  match axis with
  | Axis.y =>
      if st.vel.y < 0 then
        { st with pos := { st.pos with y := (byv : ℚ) + 1 },
                  vel := { st.vel with y := 0 }, onGround := true }
      else
        { st with pos := { st.pos with y := (byv : ℚ) - PLAYER_HEIGHT },
                  vel := { st.vel with y := 0 } }
  | Axis.x =>
      { st with
        pos := { st.pos with x :=
          (if off.1 > 0 then (bx : ℚ) - PLAYER_WIDTH / 2
           else (bx : ℚ) + 1 + PLAYER_WIDTH / 2) },
        vel := { st.vel with x := 0 } }
  | Axis.z =>
      { st with
        pos := { st.pos with z :=
          (if off.2.2 > 0 then (bz : ℚ) - PLAYER_WIDTH / 2
           else (bz : ℚ) + 1 + PLAYER_WIDTH / 2) },
        vel := { st.vel with z := 0 } }

/-- The probe loop of `collideAxis`: respond to the first solid probe and
stop (the code's `break`); leave the state unchanged when no probe is solid. -/
def collideLoop (w : World) (axis : Axis) (st : PlayerState) :
    List (ℚ × ℚ × ℚ) → PlayerState
  | [] => st
  | off :: rest =>
      if isSolidBlock (probeBlock w st off) then
        collideResponse axis st off ⌊st.pos.x + off.1⌋ ⌊st.pos.y + off.2.1⌋
          ⌊st.pos.z + off.2.2⌋
      else collideLoop w axis st rest

/-- One axis pass of the collision step (`collideAxis`), including the final
grounded-flag clear for a vertical pass that ends with non-zero vertical
velocity. -/
def Player.collideAxis (w : World) (axis : Axis) (st : PlayerState) : PlayerState :=
  let st2 := collideLoop w axis st (collideOffsets axis)
  if axis = Axis.y ∧ st2.vel.y ≠ 0 then { st2 with onGround := false } else st2

/-- Fixture: a player standing in the stone voxel of `stoneTopChunk`, falling. -/
def collideFixtureState : PlayerState :=
  ⟨⟨1 / 2, 127 / 2, 1 / 2⟩, ⟨0, -1, 0⟩, false⟩

/-- Fixture: a world holding only `stoneTopChunk` at the origin. -/
def stoneWorld : World := ⟨[((0, 0), stoneTopChunk)], none, none⟩

/-- Neighbor resolution as claim C3 words it (for comparison with the source's
`resolveNeighbor`): resolved locally when the neighbor voxel is inside the
chunk, and via the injected neighbor lookup otherwise. -/
def resolveNeighborClaim (c : Chunk) (lookup : ℤ → ℤ → ℤ → ℤ) (nx ny nz : ℤ) : ℤ :=
  if Chunk.inBounds nx ny nz then c.getBlock nx ny nz
  else lookup (c.cx * 16 + nx) ny (c.cz * 16 + nz)

/-- Statement of claim C3 about `buildMesh` face emission, formalized from the
claim's words: for every non-AIR voxel and face direction, with the neighbor
resolved per `resolveNeighborClaim`, a water face is emitted exactly when the
neighbor is AIR, and an opaque face exactly when the neighbor is transparent
or the unknown sentinel. -/
def buildMeshClaim (c : Chunk) (lookup : ℤ → ℤ → ℤ → ℤ) : Prop :=
  ∀ (x y z : ℤ) (i : Fin 6), Chunk.inBounds x y z → c.getBlock x y z ≠ 0 →
    ((c.getBlock x y z = 7 →
      ((((x, y, z), i) : Face) ∈ waterFaces c lookup ↔
        resolveNeighborClaim c lookup (x + (faceDirs i).1) (y + (faceDirs i).2.1)
          (z + (faceDirs i).2.2) = 0)) ∧
     (c.getBlock x y z ≠ 7 →
      ((((x, y, z), i) : Face) ∈ opaqueFaces c lookup ↔
        (TRANSPARENT
            (resolveNeighborClaim c lookup (x + (faceDirs i).1) (y + (faceDirs i).2.1)
              (z + (faceDirs i).2.2)) = true ∨
          resolveNeighborClaim c lookup (x + (faceDirs i).1) (y + (faceDirs i).2.1)
            (z + (faceDirs i).2.2) = -1))))

/-- The four orthogonally adjacent chunk coordinates. -/
def orthoNeighbors (cx cz : ℤ) : List (ℤ × ℤ) :=
  [(cx - 1, cz), (cx + 1, cz), (cx, cz - 1), (cx, cz + 1)]

/-- Statement of claim C1 about `World.loadChunk`, formalized from the claim's
words (for comparison against the source embedding): a no-op when the chunk is
present, and otherwise the generated chunk is inserted, its mesh is built, and
the mesh of each already-loaded orthogonal neighbor is rebuilt. -/
def loadChunkClaim (height : ℤ → ℤ → ℤ) (tree : ℤ → ℤ → Bool) (w : World) (cx cz : ℤ) :
    Prop :=
  ((w.getChunk cx cz).isSome →
    World.loadChunk height tree w cx cz = (w, [])) ∧
  ((w.getChunk cx cz).isSome = false →
    (∃ c, (World.loadChunk height tree w cx cz).1.getChunk cx cz = some c ∧
        c.data = (generateChunk height tree ⟨cx, cz, fun _ => (0 : Fin 256), none, none⟩).data) ∧
    SceneEvent.built (cx, cz) ∈ (World.loadChunk height tree w cx cz).2 ∧
    ∀ p ∈ orthoNeighbors cx cz, (w.getChunk p.1 p.2).isSome →
      SceneEvent.built p ∈ (World.loadChunk height tree w cx cz).2)

/-- A freshly constructed all-AIR chunk at the origin, used as a concrete
test fixture. -/
def airChunk : Chunk := ⟨0, 0, fun _ => (0 : Fin 256), none, none⟩

/-- A world holding exactly the origin chunk, used as a concrete test
fixture. -/
def oneChunkWorld : World := ⟨[((0, 0), airChunk)], none, none⟩

/-! ## Gradient noise (noise.js).  The seeded permutation table is abstracted
to an arbitrary table `perm : ℕ → ℕ`; quantifying over all tables covers
every seed.  JS numbers are idealized as rationals — every operation in
`noise2D`/`octaves` is rational-closed. -/

/-- A noise field: the (seed-derived) permutation table. -/
structure SimplexNoise : Type where
  perm : ℕ → ℕ

/-- The quintic fade curve `t³(t(6t−15)+10)`. -/
def SimplexNoise.fade (t : ℚ) : ℚ := t * t * t * (t * (t * 6 - 15) + 10)

/-- Linear interpolation `a + t(b−a)`. -/
def SimplexNoise.lerp (a b t : ℚ) : ℚ := a + t * (b - a)

/-- Gradient selection: `h = hash & 3` picks one of the diagonal gradients
`±x ± y` (with `u`/`v` swapped for `h ≥ 2`); `h & 1` negates `u`, `h & 2`
negates `v`. -/
def SimplexNoise.grad (hash : ℕ) (x y : ℚ) : ℚ :=
  (if hash % 4 % 2 = 1 then -(if hash % 4 < 2 then x else y)
   else (if hash % 4 < 2 then x else y)) +
  (if 2 ≤ hash % 4 then -(if hash % 4 < 2 then y else x)
   else (if hash % 4 < 2 then y else x))

/-- 2D gradient noise: hash the four lattice corners of the containing unit
cell through the permutation table and blend the corner gradient values with
the faded fractional offsets. -/
def SimplexNoise.noise2D (n : SimplexNoise) (x y : ℚ) : ℚ :=
  SimplexNoise.lerp
    (SimplexNoise.lerp
      (SimplexNoise.grad
        (n.perm (n.perm (n.perm ((⌊x⌋ % 256).toNat) + (⌊y⌋ % 256).toNat)))
        (x - ⌊x⌋) (y - ⌊y⌋))
      (SimplexNoise.grad
        (n.perm (n.perm (n.perm ((⌊x⌋ % 256).toNat + 1) + (⌊y⌋ % 256).toNat)))
        (x - ⌊x⌋ - 1) (y - ⌊y⌋))
      (SimplexNoise.fade (x - ⌊x⌋)))
    (SimplexNoise.lerp
      (SimplexNoise.grad
        (n.perm (n.perm (n.perm ((⌊x⌋ % 256).toNat) + (⌊y⌋ % 256).toNat + 1)))
        (x - ⌊x⌋) (y - ⌊y⌋ - 1))
      (SimplexNoise.grad
        (n.perm (n.perm (n.perm ((⌊x⌋ % 256).toNat + 1) + (⌊y⌋ % 256).toNat + 1)))
        (x - ⌊x⌋ - 1) (y - ⌊y⌋ - 1))
      (SimplexNoise.fade (x - ⌊x⌋)))
    (SimplexNoise.fade (y - ⌊y⌋))

/-- The layered-octave accumulation loop, carrying amplitude, frequency, the
running sum and the summed amplitude. -/
def SimplexNoise.octavesLoop (n : SimplexNoise) (x y persistence : ℚ) :
    ℕ → ℚ → ℚ → ℚ → ℚ → ℚ × ℚ
  | 0, _, _, val, maxAmp => (val, maxAmp)
  | k + 1, amp, freq, val, maxAmp =>
      SimplexNoise.octavesLoop n x y persistence k (amp * persistence) (freq * 2)
        (val + n.noise2D (x * freq) (y * freq) * amp) (maxAmp + amp)

/-- Layered noise: sum `count` octaves at doubling frequency and geometrically
decaying amplitude, normalized by the summed amplitude. -/
def SimplexNoise.octaves (n : SimplexNoise) (x y : ℚ) (count : ℕ)
    (persistence scale : ℚ) : ℚ :=
  (SimplexNoise.octavesLoop n x y persistence count 1 scale 0 0).1 /
    (SimplexNoise.octavesLoop n x y persistence count 1 scale 0 0).2

/-! ## Raycast (player.js).  The DDA state carries, per axis, the parametric
distance to the next voxel boundary; JS `Infinity` (for a zero direction
component) is modelled as `none : Option ℚ`. -/

def REACH : ℚ := 5

/-- Strict comparison with `none` as positive infinity, matching the JS
comparisons against `Infinity`. -/
def oLT : Option ℚ → Option ℚ → Bool
  | none, _ => false
  | some _, none => true
  | some a, some b => decide (a < b)

/-- Minimum with `none` as positive infinity (`Math.min`). -/
def oMin : Option ℚ → Option ℚ → Option ℚ
  | none, c => c
  | some a, none => some a
  | some a, some b => some (min a b)

/-- Addition of a finite increment to a possibly-infinite bound
(`Infinity + x = Infinity`). -/
def oAdd : Option ℚ → Option ℚ → Option ℚ
  | some a, some b => some (a + b)
  | _, _ => none

/-- The targetability test of the raycast loop:
`block !== BLOCKS.AIR && block > 0`. -/
def raycastHit (b : ℤ) : Bool := decide (b ≠ 0 ∧ 0 < b)

/-- The DDA loop of `Player.raycast`: while the nearest boundary is within
reach, advance one voxel on the axis with the smallest remaining parametric
distance (x wins only when strictly smallest; otherwise y wins over z on
ties, as in the code's branch order), record the previous voxel, and stop at
the first voxel holding a positive block code.  The fuel argument bounds the
iteration count; 64 exceeds the worst case for a unit direction, which is
proved below. -/
def rayLoop (blockAt : ℤ → ℤ → ℤ → ℤ) (stepX stepY stepZ : ℤ)
    (tDX tDY tDZ : Option ℚ) :
    ℕ → ℤ → ℤ → ℤ → Option ℚ → Option ℚ → Option ℚ →
    Option ((ℤ × ℤ × ℤ) × (ℤ × ℤ × ℤ))
  | 0, _, _, _, _, _, _ => none
  | fuel + 1, ix, iy, iz, tMX, tMY, tMZ =>
      if oLT (oMin tMX (oMin tMY tMZ)) (some REACH) then
        if oLT tMX tMY && oLT tMX tMZ then
          if raycastHit (blockAt (ix + stepX) iy iz) then
            some ((ix + stepX, iy, iz), (ix, iy, iz))
          else
            rayLoop blockAt stepX stepY stepZ tDX tDY tDZ fuel
              (ix + stepX) iy iz (oAdd tMX tDX) tMY tMZ
        else if oLT tMY tMZ then
          if raycastHit (blockAt ix (iy + stepY) iz) then
            some ((ix, iy + stepY, iz), (ix, iy, iz))
          else
            rayLoop blockAt stepX stepY stepZ tDX tDY tDZ fuel
              ix (iy + stepY) iz tMX (oAdd tMY tDY) tMZ
        else
          if raycastHit (blockAt ix iy (iz + stepZ)) then
            some ((ix, iy, iz + stepZ), (ix, iy, iz))
          else
            rayLoop blockAt stepX stepY stepZ tDX tDY tDZ fuel
              ix iy (iz + stepZ) tMX tMY (oAdd tMZ tDZ)
      else none

/-- Per-axis step direction: `d >= 0 ? 1 : -1`. -/
def stepOf (dA : ℚ) : ℤ := if 0 ≤ dA then 1 else -1

/-- Per-axis boundary-to-boundary parametric distance: `Math.abs(1/d)`,
infinite for a stationary axis. -/
def tdOf (dA : ℚ) : Option ℚ := if dA = 0 then none else some |1 / dA|

/-- Per-axis initial distance to the first voxel boundary. -/
def tmInit (pA dA : ℚ) : Option ℚ :=
  if dA = 0 then none
  else some ((if 0 < dA then 1 - (pA - ⌊pA⌋) else pA - ⌊pA⌋) / |dA|)

/-- The raycast entry point: initial cell, step directions, per-axis boundary
distances and their increments, then the DDA loop.  The direction vector is
taken as a parameter (the code derives it from yaw/pitch; quantifying over
unit vectors covers every orientation). -/
def raycastCore (blockAt : ℤ → ℤ → ℤ → ℤ) (p d : V3) :
    Option ((ℤ × ℤ × ℤ) × (ℤ × ℤ × ℤ)) :=
  rayLoop blockAt
    (stepOf d.x) (stepOf d.y) (stepOf d.z)
    (tdOf d.x) (tdOf d.y) (tdOf d.z)
    64 ⌊p.x⌋ ⌊p.y⌋ ⌊p.z⌋
    (tmInit p.x d.x) (tmInit p.y d.y) (tmInit p.z d.z)

/-- The raycast as the player performs it, against the world lookup. -/
def Player.raycast (w : World) (p d : V3) : Option ((ℤ × ℤ × ℤ) × (ℤ × ℤ × ℤ)) :=
  raycastCore (fun a b c => w.getBlockWorld a b c) p d

/-- The voxel containing the ray point at parameter `t`. -/
def cellAt (p d : V3) (t : ℚ) : ℤ × ℤ × ℤ :=
  (⌊p.x + t * d.x⌋, ⌊p.y + t * d.y⌋, ⌊p.z + t * d.z⌋)

/-- A solid (targetable) voxel for the raycast: one holding an actual
non-AIR block, i.e. a positive block code (the sentinel -1 is not a block). -/
def raySolid (blockAt : ℤ → ℤ → ℤ → ℤ) (c : ℤ × ℤ × ℤ) : Prop :=
  0 < blockAt c.1 c.2.1 c.2.2

/-- Statement of claim C2 for a given raycast result, formalized from the
claim's words: `none` means no solid voxel is entered within `REACH` (other
than the voxel the camera starts in, which the traversal never tests);
`some (hit, before)` means `hit` is solid, is entered within reach, no solid
voxel other than the start is entered strictly before it, and `before` is the
voxel traversed immediately before `hit`. -/
def rayResultSpec (blockAt : ℤ → ℤ → ℤ → ℤ) (p d : V3)
    (r : Option ((ℤ × ℤ × ℤ) × (ℤ × ℤ × ℤ))) : Prop :=
  match r with
  | none =>
      ∀ t : ℚ, 0 < t → t < REACH →
        cellAt p d t = cellAt p d 0 ∨ ¬ raySolid blockAt (cellAt p d t)
  | some r =>
      raySolid blockAt r.1 ∧
      (∃ t : ℚ, 0 < t ∧ t < REACH ∧ cellAt p d t = r.1) ∧
      (∀ t : ℚ, 0 < t → t < REACH → raySolid blockAt (cellAt p d t) →
        cellAt p d t ≠ cellAt p d 0 →
        ∃ s : ℚ, 0 < s ∧ s ≤ t ∧ cellAt p d s = r.1) ∧
      (∃ t1 t2 : ℚ, 0 ≤ t1 ∧ t1 < t2 ∧ t2 < REACH ∧
        cellAt p d t1 = r.2 ∧ cellAt p d t2 = r.1 ∧
        ∀ s : ℚ, t1 ≤ s → s ≤ t2 → cellAt p d s = r.2 ∨ cellAt p d s = r.1)

/-- Claim C2 as a property of the player's raycast against a world, on given
camera position and direction. -/
def raycastClaim (w : World) (p d : V3) : Prop :=
  rayResultSpec (fun a b c => w.getBlockWorld a b c) p d (Player.raycast w p d)

/-- An axis whose coordinate moves and sits exactly on a voxel boundary at
parameter `t`. -/
def AxisAtBoundary (pA dA : ℚ) (t : ℚ) : Prop :=
  dA ≠ 0 ∧ ∃ k : ℤ, pA + t * dA = (k : ℚ)

/-- Non-degeneracy of a ray within reach: no two moving axes sit on voxel
boundaries at the same parameter, i.e. the ray never passes exactly through
a voxel edge or corner (and does not start on one). -/
def NoTie (p d : V3) : Prop :=
  ∀ t : ℚ, 0 ≤ t → t ≤ REACH →
    ¬ (AxisAtBoundary p.x d.x t ∧ AxisAtBoundary p.y d.y t) ∧
    ¬ (AxisAtBoundary p.x d.x t ∧ AxisAtBoundary p.z d.z t) ∧
    ¬ (AxisAtBoundary p.y d.y t ∧ AxisAtBoundary p.z d.z t)

/-- The single-axis loop invariant of the DDA: for a stationary axis the
boundary distance is infinite and the cell index is the floor of the
coordinate; for a moving axis the boundary distance marks the exact parameter
at which the coordinate reaches the next boundary in the step direction, it
is not earlier than the parameter `tCur` of the last crossing, and at `tCur`
the coordinate is inside (or on the entering edge of) the current cell. -/
def AxisInv (pA dA : ℚ) (iA : ℤ) (tM : Option ℚ) (tCur : ℚ) : Prop :=
  (dA = 0 → tM = none ∧ ⌊pA⌋ = iA) ∧
  (0 < dA →
    ∃ tm : ℚ, tM = some tm ∧ tCur ≤ tm ∧ pA + tm * dA = (iA : ℚ) + 1 ∧
      (iA : ℚ) ≤ pA + tCur * dA) ∧
  (dA < 0 →
    ∃ tm : ℚ, tM = some tm ∧ tCur ≤ tm ∧ pA + tm * dA = (iA : ℚ) ∧
      pA + tCur * dA ≤ (iA : ℚ) + 1)

/-- Evidence that the current crossing parameter `tCur` is a genuine boundary
crossing of some moving axis whose next crossing is strictly later; used to
rule out repeated zero-length steps at a tie. -/
def AxisFlag (pA dA : ℚ) (tM : Option ℚ) (tCur : ℚ) : Prop :=
  dA ≠ 0 ∧ (∃ k : ℤ, pA + tCur * dA = (k : ℚ)) ∧ (∃ tm, tM = some tm ∧ tCur < tm)

/-- Per-axis count of boundary crossings that can still happen within reach;
the potential function that bounds the remaining loop iterations. -/
def axisCount (tM tD : Option ℚ) : ℕ :=
  match tM, tD with
  | some tm, some td => (Int.ceil ((REACH - tm) / td)).toNat
  | _, _ => 0

/-- Fixture chunk for the C2 counterexample: a single solid block at local
(0,1,0) (flat index 16), everywhere else air. -/
def tieChunk : Chunk :=
  ⟨0, 0, fun n => if n = 16 then 3 else 0, none, none⟩

/-- Fixture world for the C2 counterexample: only `tieChunk` is loaded, at
the origin. -/
def tieWorld : World := ⟨[((0, 0), tieChunk)], none, none⟩

/-- Fixture camera position for the C2 counterexample. -/
def tiePos : V3 := ⟨1 / 2, 1 / 2, 1 / 2⟩

/-- Fixture direction for the C2 counterexample: a unit vector (realizable
from yaw/pitch) whose x and y boundary crossings coincide at t = 3/4, where
the ray passes exactly through a voxel edge. -/
def tieDir : V3 := ⟨2 / 3, 2 / 3, -(1 / 3)⟩

end BoxWorld

namespace BoxWorld

/-! ## Supporting lemmas -/

theorem tmod_sixteen_bounds (a : ℤ) : -16 < a.tmod 16 ∧ a.tmod 16 < 16 := by
  rcases le_or_lt 0 a with h | h
  · have h1 : a.tmod 16 = a % 16 := Int.tmod_eq_emod h (by norm_num)
    constructor <;> omega
  · have h2 : (-a).tmod 16 = (-a) % 16 := Int.tmod_eq_emod (by omega) (by norm_num)
    have hd : (-a).tdiv 16 = -(a.tdiv 16) := Int.neg_tdiv a 16
    have e1 := Int.tmod_add_tdiv a 16
    have e2 := Int.tmod_add_tdiv (-a) 16
    rw [hd] at e2
    have h3 : a.tmod 16 = -((-a).tmod 16) := by linarith
    have := Int.emod_nonneg (-a) (show (16 : ℤ) ≠ 0 by norm_num)
    have := Int.emod_lt_of_pos (-a) (show (0 : ℤ) < 16 by norm_num)
    omega

theorem tmod_tdiv_sixteen (a : ℤ) : a.tmod 16 = a - 16 * (a.tdiv 16) := by
  have := Int.tmod_add_tdiv a 16
  linarith

theorem localOf_spec (wx : ℤ) :
    0 ≤ World.localOf wx ∧ World.localOf wx < 16 ∧ World.localOf wx % 16 = wx % 16 := by
  unfold World.localOf
  have h1 := tmod_sixteen_bounds wx
  have h2 : 0 ≤ wx.tmod 16 + 16 := by omega
  have h3 : (wx.tmod 16 + 16).tmod 16 = (wx.tmod 16 + 16) % 16 :=
    Int.tmod_eq_emod h2 (by norm_num)
  have h4 := tmod_tdiv_sixteen wx
  constructor
  · rw [h3]; exact Int.emod_nonneg _ (by norm_num)
  constructor
  · rw [h3]; exact Int.emod_lt_of_pos _ (by norm_num)
  · rw [h3]; omega

theorem chunkOf_eq_ediv (wx : ℤ) : World.chunkOf wx = wx / 16 := by
  unfold World.chunkOf
  have h := Rat.floor_intCast_div_natCast wx 16
  norm_num at h
  exact h

theorem setBlock_coords (c : Chunk) (x y z t : ℤ) :
    (c.setBlock x y z t).cx = c.cx ∧ (c.setBlock x y z t).cz = c.cz := by
  unfold Chunk.setBlock
  split <;> simp

theorem foldl_coords {α : Type} (f : Chunk → α → Chunk)
    (hf : ∀ acc a, (f acc a).cx = acc.cx ∧ (f acc a).cz = acc.cz) :
    ∀ (l : List α) (c : Chunk), (l.foldl f c).cx = c.cx ∧ (l.foldl f c).cz = c.cz := by
  intro l
  induction l with
  | nil => intro c; simp
  | cons a t ih =>
      intro c
      simp only [List.foldl_cons]
      rcases ih (f c a) with ⟨h1, h2⟩
      rcases hf c a with ⟨h3, h4⟩
      exact ⟨h1.trans h3, h2.trans h4⟩

theorem placeTree_coords (c : Chunk) (x y z : ℤ) :
    (placeTree c x y z).cx = c.cx ∧ (placeTree c x y z).cz = c.cz := by
  unfold placeTree
  have hsb : ∀ (c0 : Chunk) (a b d t : ℤ),
      (c0.setBlock a b d t).cx = c0.cx ∧ (c0.setBlock a b d t).cz = c0.cz :=
    fun c0 a b d t => setBlock_coords c0 a b d t
  have h1 := foldl_coords (fun acc i => acc.setBlock x (y + i) z 4)
    (fun acc a => hsb acc x (y + a) z 4) (intRange 4) c
  have hdz : ∀ (acc2 : Chunk) (dy dx : ℤ),
      ((([-2, -1, 0, 1, 2] : List ℤ).foldl
        (fun acc3 dz =>
          if |dx| = 2 ∧ |dz| = 2 then acc3
          else acc3.setBlock (x + dx) (y + 4 + dy) (z + dz) 5) acc2).cx = acc2.cx ∧
       (([-2, -1, 0, 1, 2] : List ℤ).foldl
        (fun acc3 dz =>
          if |dx| = 2 ∧ |dz| = 2 then acc3
          else acc3.setBlock (x + dx) (y + 4 + dy) (z + dz) 5) acc2).cz = acc2.cz) := by
    intro acc2 dy dx
    refine foldl_coords _ (fun acc a => ?_) _ acc2
    split
    · exact ⟨rfl, rfl⟩
    · exact hsb acc (x + dx) (y + 4 + dy) (z + a) 5
  have hdx : ∀ (acc : Chunk) (dy : ℤ),
      ((([-2, -1, 0, 1, 2] : List ℤ).foldl
        (fun acc2 dx =>
          ([-2, -1, 0, 1, 2] : List ℤ).foldl
            (fun acc3 dz =>
              if |dx| = 2 ∧ |dz| = 2 then acc3
              else acc3.setBlock (x + dx) (y + 4 + dy) (z + dz) 5) acc2) acc).cx = acc.cx ∧
       (([-2, -1, 0, 1, 2] : List ℤ).foldl
        (fun acc2 dx =>
          ([-2, -1, 0, 1, 2] : List ℤ).foldl
            (fun acc3 dz =>
              if |dx| = 2 ∧ |dz| = 2 then acc3
              else acc3.setBlock (x + dx) (y + 4 + dy) (z + dz) 5) acc2) acc).cz = acc.cz) := by
    intro acc dy
    exact foldl_coords _ (fun acc2 a => hdz acc2 dy a) _ acc
  have h2 := foldl_coords
    (fun acc dy =>
      ([-2, -1, 0, 1, 2] : List ℤ).foldl
        (fun acc2 dx =>
          ([-2, -1, 0, 1, 2] : List ℤ).foldl
            (fun acc3 dz =>
              if |dx| = 2 ∧ |dz| = 2 then acc3
              else acc3.setBlock (x + dx) (y + 4 + dy) (z + dz) 5) acc2) acc)
    (fun acc a => hdx acc a) ([-1, 0, 1] : List ℤ)
    ((intRange 4).foldl (fun acc i => acc.setBlock x (y + i) z 4) c)
  rcases h2 with ⟨h2a, h2b⟩
  rcases h1 with ⟨h1a, h1b⟩
  constructor
  · exact (hsb _ x (y + 4 + 2) z 5).1.trans (h2a.trans h1a)
  · exact (hsb _ x (y + 4 + 2) z 5).2.trans (h2b.trans h1b)

theorem generateChunk_coords (height : ℤ → ℤ → ℤ) (tree : ℤ → ℤ → Bool) (c : Chunk) :
    (generateChunk height tree c).cx = c.cx ∧ (generateChunk height tree c).cz = c.cz := by
  unfold generateChunk
  have hsb := setBlock_coords
  have hy : ∀ (acc2 : Chunk) (hv x z : ℤ),
      (((intRange 64).foldl (fun acc3 y => acc3.setBlock x y z (terrainBlock hv y)) acc2).cx
        = acc2.cx ∧
       ((intRange 64).foldl (fun acc3 y => acc3.setBlock x y z (terrainBlock hv y)) acc2).cz
        = acc2.cz) := by
    intro acc2 hv x z
    exact foldl_coords _ (fun acc a => hsb acc x a z (terrainBlock hv a)) _ acc2
  have hp1 : ∀ (c0 : Chunk),
      (((intRange 16).foldl
          (fun acc z =>
            (intRange 16).foldl
              (fun acc2 x =>
                (intRange 64).foldl
                  (fun acc3 y =>
                    acc3.setBlock x y z
                      (terrainBlock (height (c.cx * 16 + x) (c.cz * 16 + z)) y))
                  acc2)
              acc)
          c0).cx = c0.cx ∧
       ((intRange 16).foldl
          (fun acc z =>
            (intRange 16).foldl
              (fun acc2 x =>
                (intRange 64).foldl
                  (fun acc3 y =>
                    acc3.setBlock x y z
                      (terrainBlock (height (c.cx * 16 + x) (c.cz * 16 + z)) y))
                  acc2)
              acc)
          c0).cz = c0.cz) := by
    intro c0
    refine foldl_coords _ (fun acc z => ?_) _ c0
    refine foldl_coords _ (fun acc2 x => ?_) _ acc
    exact hy acc2 _ x z
  have hp2 : ∀ (c0 : Chunk),
      (((intRange 16).foldl
          (fun acc z =>
            (intRange 16).foldl
              (fun acc2 x =>
                if height (c.cx * 16 + x) (c.cz * 16 + z) > 14 ∧
                    tree (c.cx * 16 + x) (c.cz * 16 + z) = true then
                  placeTree acc2 x (height (c.cx * 16 + x) (c.cz * 16 + z) + 1) z
                else acc2)
              acc)
          c0).cx = c0.cx ∧
       ((intRange 16).foldl
          (fun acc z =>
            (intRange 16).foldl
              (fun acc2 x =>
                if height (c.cx * 16 + x) (c.cz * 16 + z) > 14 ∧
                    tree (c.cx * 16 + x) (c.cz * 16 + z) = true then
                  placeTree acc2 x (height (c.cx * 16 + x) (c.cz * 16 + z) + 1) z
                else acc2)
              acc)
          c0).cz = c0.cz) := by
    intro c0
    refine foldl_coords _ (fun acc z => ?_) _ c0
    refine foldl_coords _ (fun acc2 x => ?_) _ acc
    split
    · exact placeTree_coords acc2 x _ z
    · exact ⟨rfl, rfl⟩
  constructor
  · exact (hp2 _).1.trans (hp1 c).1
  · exact (hp2 _).2.trans (hp1 c).2

theorem getChunk_isSome_false_find (w : World) (cx cz : ℤ)
    (h : (w.getChunk cx cz).isSome = false) :
    w.chunks.find? (fun e => decide (e.1 = (cx, cz))) = none := by
  unfold World.getChunk at h
  cases hf : w.chunks.find? (fun e => decide (e.1 = (cx, cz))) with
  | none => rfl
  | some e => rw [hf] at h; simp at h

theorem map_replace_of_no_key (l : List ((ℤ × ℤ) × Chunk)) (key : ℤ × ℤ) (c : Chunk)
    (h : ∀ e ∈ l, ¬ e.1 = key) :
    (l.map fun e => if e.1 = key then (key, c) else e) = l := by
  induction l with
  | nil => rfl
  | cons a t ih =>
      simp only [List.map_cons]
      rw [if_neg (h a (List.mem_cons_self a t)), ih (fun e he => h e (List.mem_cons_of_mem a he))]

theorem loadChunk_chunks (height : ℤ → ℤ → ℤ) (tree : ℤ → ℤ → Bool) (w : World) (cx cz : ℤ)
    (h : (w.getChunk cx cz).isSome = false) :
    (World.loadChunk height tree w cx cz).1.chunks =
      w.chunks ++
        [((cx, cz),
          ((generateChunk height tree ⟨cx, cz, fun _ => (0 : Fin 256), none, none⟩).buildMesh
            fun wx wy wz =>
              (⟨w.chunks ++
                  [((cx, cz),
                    generateChunk height tree ⟨cx, cz, fun _ => (0 : Fin 256), none, none⟩)],
                w.lastPCX, w.lastPCZ⟩ : World).getBlockWorld wx wy wz).1)] ∧
    (World.loadChunk height tree w cx cz).1.lastPCX = w.lastPCX ∧
    (World.loadChunk height tree w cx cz).1.lastPCZ = w.lastPCZ := by
  have hf := getChunk_isSome_false_find w cx cz h
  have hnk : ∀ e ∈ w.chunks, ¬ e.1 = (cx, cz) := by
    intro e he
    have := List.find?_eq_none.mp hf e he
    simpa using this
  simp only [World.loadChunk, h, Bool.false_eq_true, if_false, World.replaceChunk]
  refine ⟨?_, by trivial, by trivial⟩
  rw [List.map_append, map_replace_of_no_key _ _ _ hnk]
  simp

theorem loadChunk_events (height : ℤ → ℤ → ℤ) (tree : ℤ → ℤ → Bool) (w : World) (cx cz : ℤ)
    (h : (w.getChunk cx cz).isSome = false) :
    (World.loadChunk height tree w cx cz).2 = [SceneEvent.built (cx, cz)] := by
  simp only [World.loadChunk, h, Bool.false_eq_true, if_false, Chunk.buildMesh]
  rcases generateChunk_coords height tree ⟨cx, cz, fun _ => (0 : Fin 256), none, none⟩ with
    ⟨h1, h2⟩
  rw [h1, h2]

theorem loadChunk_isSome_mono (height : ℤ → ℤ → ℤ) (tree : ℤ → ℤ → Bool) (w : World)
    (cx cz a b : ℤ) (ha : (w.getChunk a b).isSome = true) :
    ((World.loadChunk height tree w cx cz).1.getChunk a b).isSome = true := by
  by_cases hp : (w.getChunk cx cz).isSome = true
  · simp only [World.loadChunk, hp, if_true]
    exact ha
  · have h : (w.getChunk cx cz).isSome = false := by
      cases hv : (w.getChunk cx cz).isSome
      · rfl
      · exact absurd hv hp
    unfold World.getChunk at ha ⊢
    rw [(loadChunk_chunks height tree w cx cz h).1, List.find?_append]
    cases hfa : w.chunks.find? (fun e => decide (e.1 = (a, b))) with
    | none => rw [hfa] at ha; simp at ha
    | some e => simp

theorem loadChunk_isSome_target (height : ℤ → ℤ → ℤ) (tree : ℤ → ℤ → Bool) (w : World)
    (cx cz : ℤ) :
    ((World.loadChunk height tree w cx cz).1.getChunk cx cz).isSome = true := by
  by_cases hp : (w.getChunk cx cz).isSome = true
  · simp only [World.loadChunk, hp, if_true]
  · have h : (w.getChunk cx cz).isSome = false := by
      cases hv : (w.getChunk cx cz).isSome
      · rfl
      · exact absurd hv hp
    unfold World.getChunk
    rw [(loadChunk_chunks height tree w cx cz h).1, List.find?_append,
      getChunk_isSome_false_find w cx cz h]
    simp

theorem buildMesh_coords (c : Chunk) (lk : ℤ → ℤ → ℤ → ℤ) :
    ((c.buildMesh lk).1.cx = c.cx ∧ (c.buildMesh lk).1.cz = c.cz) :=
  ⟨rfl, rfl⟩

theorem loadChunk_WF (height : ℤ → ℤ → ℤ) (tree : ℤ → ℤ → Bool) (w : World) (cx cz : ℤ)
    (hwf : World.WF w) : World.WF (World.loadChunk height tree w cx cz).1 := by
  by_cases hp : (w.getChunk cx cz).isSome = true
  · simp only [World.loadChunk, hp, if_true]
    exact hwf
  · have h : (w.getChunk cx cz).isSome = false := by
      cases hv : (w.getChunk cx cz).isSome
      · rfl
      · exact absurd hv hp
    intro e he
    rw [(loadChunk_chunks height tree w cx cz h).1] at he
    rcases List.mem_append.mp he with hm | hm
    · exact hwf e hm
    · have : e =
          ((cx, cz),
            ((generateChunk height tree ⟨cx, cz, fun _ => (0 : Fin 256), none, none⟩).buildMesh
              fun wx wy wz =>
                (⟨w.chunks ++
                    [((cx, cz),
                      generateChunk height tree ⟨cx, cz, fun _ => (0 : Fin 256), none, none⟩)],
                  w.lastPCX, w.lastPCZ⟩ : World).getBlockWorld wx wy wz).1) := by
        simpa using hm
      subst this
      have h1 := (generateChunk_coords height tree
        ⟨cx, cz, fun _ => (0 : Fin 256), none, none⟩).1
      have h2 := (generateChunk_coords height tree
        ⟨cx, cz, fun _ => (0 : Fin 256), none, none⟩).2
      simp only [Prod.mk.injEq]
      constructor
      · exact (h1.trans rfl).symm
      · exact (h2.trans rfl).symm

theorem loadSquare_isSome_mono (height : ℤ → ℤ → ℤ) (tree : ℤ → ℤ → Bool)
    (pcx pcz a b : ℤ) :
    ∀ (l : List (ℤ × ℤ)) (acc : World × List SceneEvent),
      (acc.1.getChunk a b).isSome = true →
      (((l.foldl
          (fun acc p =>
            let r := World.loadChunk height tree acc.1 (pcx + p.1) (pcz + p.2)
            (r.1, acc.2 ++ r.2))
          acc).1.getChunk a b).isSome = true) := by
  intro l
  induction l with
  | nil => intro acc ha; exact ha
  | cons p t ih =>
      intro acc ha
      simp only [List.foldl_cons]
      exact ih _ (loadChunk_isSome_mono height tree acc.1 (pcx + p.1) (pcz + p.2) a b ha)

theorem loadSquare_isSome_all (height : ℤ → ℤ → ℤ) (tree : ℤ → ℤ → Bool) (pcx pcz : ℤ) :
    ∀ (l : List (ℤ × ℤ)) (acc : World × List SceneEvent) (p : ℤ × ℤ), p ∈ l →
      (((l.foldl
          (fun acc p =>
            let r := World.loadChunk height tree acc.1 (pcx + p.1) (pcz + p.2)
            (r.1, acc.2 ++ r.2))
          acc).1.getChunk (pcx + p.1) (pcz + p.2)).isSome = true) := by
  intro l
  induction l with
  | nil => intro acc p hp; simp at hp
  | cons q t ih =>
      intro acc p hp
      simp only [List.foldl_cons]
      rcases List.mem_cons.mp hp with he | ht
      · subst he
        exact loadSquare_isSome_mono height tree pcx pcz _ _ t _
          (loadChunk_isSome_target height tree acc.1 (pcx + p.1) (pcz + p.2))
      · exact ih _ p ht

theorem loadSquare_WF (height : ℤ → ℤ → ℤ) (tree : ℤ → ℤ → Bool) (pcx pcz : ℤ) :
    ∀ (l : List (ℤ × ℤ)) (acc : World × List SceneEvent), World.WF acc.1 →
      World.WF
        (l.foldl
          (fun acc p =>
            let r := World.loadChunk height tree acc.1 (pcx + p.1) (pcz + p.2)
            (r.1, acc.2 ++ r.2))
          acc).1 := by
  intro l
  induction l with
  | nil => intro acc h; exact h
  | cons q t ih =>
      intro acc h
      simp only [List.foldl_cons]
      exact ih _ (loadChunk_WF height tree acc.1 (pcx + q.1) (pcz + q.2) h)

theorem find?_filter_of_found {α : Type} (p q : α → Bool) :
    ∀ (l : List α) (e : α), l.find? p = some e → q e = true →
      (l.filter q).find? p = some e := by
  intro l
  induction l with
  | nil => intro e h; simp at h
  | cons x t ih =>
      intro e h hq
      by_cases hpx : p x = true
      · rw [List.find?_cons_of_pos _ hpx] at h
        have hex : x = e := by simpa using h
        subst hex
        rw [List.filter_cons, if_pos hq, List.find?_cons_of_pos _ hpx]
      · have hpf : p x = false := by
          cases hv : p x
          · rfl
          · exact absurd hv hpx
        rw [List.find?_cons_of_neg _ (by simp [hpf])] at h
        rw [List.filter_cons]
        by_cases hqx : q x = true
        · rw [if_pos hqx, List.find?_cons_of_neg _ (by simp [hpf])]
          exact ih e h hq
        · rw [if_neg hqx]
          exact ih e h hq

theorem mem_scanOffsets (a : ℤ) (h1 : -4 ≤ a) (h2 : a ≤ 4) : a ∈ scanOffsets := by
  unfold scanOffsets
  simp only [List.mem_cons, List.not_mem_nil, or_false]
  omega

theorem mem_scanPairs (dx dz : ℤ) (h1 : -4 ≤ dx) (h2 : dx ≤ 4) (h3 : -4 ≤ dz)
    (h4 : dz ≤ 4) : (dx, dz) ∈ scanPairs := by
  unfold scanPairs
  exact List.mem_flatMap.mpr ⟨dx, mem_scanOffsets dx h1 h2,
    List.mem_map.mpr ⟨dz, mem_scanOffsets dz h3 h4, rfl⟩⟩

theorem getChunk_isSome_exists (w : World) (cx cz : ℤ)
    (h : (w.getChunk cx cz).isSome = true) :
    ∃ e, w.chunks.find? (fun e => decide (e.1 = (cx, cz))) = some e ∧ e.1 = (cx, cz) := by
  unfold World.getChunk at h
  cases hf : w.chunks.find? (fun e => decide (e.1 = (cx, cz))) with
  | none => rw [hf] at h; simp at h
  | some e => exact ⟨e, rfl, by simpa using List.find?_some hf⟩

end BoxWorld

namespace BoxWorld

/-- C9: for every integer world coordinate `wx` with chunk size 16, the chunk
coordinate `cx = floor(wx/16)` and local coordinate
`lx = ((wx mod 16) + 16) mod 16` computed by `World.getBlockWorld` satisfy
`0 ≤ lx < 16` and `cx * 16 + lx = wx`: the mapping is a bijective
decomposition. -/
theorem world_coord_decomposition (wx : ℤ) :
    0 ≤ World.localOf wx ∧ World.localOf wx < 16 ∧
      World.chunkOf wx * 16 + World.localOf wx = wx := by
  have h1 := localOf_spec wx
  have h2 := chunkOf_eq_ediv wx
  refine ⟨h1.1, h1.2.1, ?_⟩
  have h3 := h1.2.2
  omega

/-- C7: for every out-of-range local coordinate, `Chunk.getBlock` returns the
sentinel `-1`, which is distinct from AIR and from every valid block code,
and `Chunk.setBlock` is a no-op; for every in-range coordinate `getBlock`
never returns the sentinel, and (on a chunk whose cells all hold valid block
codes, the invariant maintained by every writer in the program) it returns a
valid block code. -/
theorem chunk_bounds_sentinel (c : Chunk) (x y z t : ℤ) :
    (¬ Chunk.inBounds x y z → c.getBlock x y z = -1 ∧ c.setBlock x y z t = c) ∧
    ((-1 : ℤ) ∉ blockCodes ∧ (-1 : ℤ) ≠ BLOCKS_AIR) ∧
    (Chunk.inBounds x y z → c.getBlock x y z ≠ -1) ∧
    (Chunk.inBounds x y z → (∀ i, ((c.data i : ℕ) : ℤ) ∈ blockCodes) →
      c.getBlock x y z ∈ blockCodes) := by
  refine ⟨fun hob => ?_, by decide, fun hib => ?_, fun hib hwf => ?_⟩
  · constructor
    · unfold Chunk.getBlock
      rw [if_neg hob]
    · unfold Chunk.setBlock
      rw [if_neg hob]
  · unfold Chunk.getBlock
    rw [if_pos hib]
    have : (0 : ℤ) ≤ ((c.data (Chunk.index x y z).toNat : ℕ) : ℤ) := Int.natCast_nonneg _
    omega
  · unfold Chunk.getBlock
    rw [if_pos hib]
    exact hwf _

/-- Witness for `chunk_bounds_sentinel` on a concrete all-AIR chunk. -/
theorem chunk_bounds_sentinel_witness :
    airChunk.getBlock 16 0 0 = -1 ∧ airChunk.setBlock 16 0 0 3 = airChunk ∧
      airChunk.getBlock 0 0 0 ≠ -1 ∧ airChunk.getBlock 0 0 0 ∈ blockCodes := by
  have h := chunk_bounds_sentinel airChunk 16 0 0 3
  have h2 := chunk_bounds_sentinel airChunk 0 0 0 3
  refine ⟨(h.1 (by decide)).1, (h.1 (by decide)).2, h2.2.2.1 (by decide), ?_⟩
  exact h2.2.2.2 (by decide) fun i => by norm_num [airChunk, blockCodes]

/-- C6: for a world coordinate whose owning chunk (by floor division of the
horizontal coordinates by 16) is not loaded, `World.getBlockWorld` returns
AIR (0, not the sentinel) and `World.setBlockWorld` is a silent no-op that
returns the registry unchanged and performs no scene effect. -/
theorem world_unloaded_noop (w : World) (wx wy wz t : ℤ)
    (h : w.getChunk (World.chunkOf wx) (World.chunkOf wz) = none) :
    w.getBlockWorld wx wy wz = 0 ∧ w.setBlockWorld wx wy wz t = (w, []) := by
  constructor
  · simp only [World.getBlockWorld, h]
  · simp only [World.setBlockWorld, h]

/-- Witness for `world_unloaded_noop` on the empty world. -/
theorem world_unloaded_noop_witness :
    World.empty.getBlockWorld 3 5 7 = 0 ∧
      World.empty.setBlockWorld 3 5 7 1 = (World.empty, []) :=
  world_unloaded_noop World.empty 3 5 7 1 rfl

/-- C10: for a loaded chunk and a vertically out-of-range `wy` (below 0 or at
least 64), `World.getBlockWorld` returns the out-of-range sentinel `-1`
rather than AIR: the sentinel escapes the world-level query vertically even
though horizontally unloaded columns map to AIR. -/
theorem world_vertical_sentinel (w : World) (wx wy wz : ℤ) (c : Chunk)
    (hc : w.getChunk (World.chunkOf wx) (World.chunkOf wz) = some c)
    (hy : wy < 0 ∨ 64 ≤ wy) :
    w.getBlockWorld wx wy wz = -1 := by
  simp only [World.getBlockWorld, hc]
  unfold Chunk.getBlock
  rw [if_neg]
  unfold Chunk.inBounds
  omega

/-- Witness for `world_vertical_sentinel`: a loaded chunk queried at height 64. -/
theorem world_vertical_sentinel_witness :
    oneChunkWorld.getBlockWorld 3 64 3 = -1 := by
  refine world_vertical_sentinel oneChunkWorld 3 64 3 airChunk ?_ (Or.inr (by norm_num))
  rw [chunkOf_eq_ediv]
  rfl

/-- C1 (counterexample): loading a fresh chunk next to an already loaded one
does not rebuild the loaded neighbor's mesh, contradicting the claim's
"rebuilds the mesh of each of the 4 orthogonally adjacent chunks that are
already loaded": loading chunk (1,0) into a world holding chunk (0,0)
produces exactly one mesh-build event, for (1,0) only. -/
theorem loadChunk_claim_counterexample :
    ¬ loadChunkClaim (fun _ _ => 5) (fun _ _ => false) oneChunkWorld 1 0 := by
  intro hcl
  have hnp : (oneChunkWorld.getChunk 1 0).isSome = false := by rfl
  obtain ⟨-, -, hadj⟩ := hcl.2 hnp
  have hin : ((0 : ℤ), (0 : ℤ)) ∈ orthoNeighbors 1 0 := by decide
  have hload : (oneChunkWorld.getChunk 0 0).isSome := by rfl
  have hb := hadj (0, 0) hin hload
  rw [loadChunk_events _ _ _ _ _ hnp] at hb
  exact absurd hb (by decide)

/-- C1 (amended): `World.loadChunk` is a no-op when the chunk is present;
otherwise it generates the new chunk's voxels, inserts it into the registry,
and builds its mesh — and builds no other mesh: the scene trace is exactly
one build event for the new chunk, and every other registry entry is left
unchanged (adjacent chunks are NOT rebuilt). -/
theorem loadChunk_spec (height : ℤ → ℤ → ℤ) (tree : ℤ → ℤ → Bool) (w : World) (cx cz : ℤ) :
    ((w.getChunk cx cz).isSome → World.loadChunk height tree w cx cz = (w, [])) ∧
    ((w.getChunk cx cz).isSome = false →
      (World.loadChunk height tree w cx cz).2 = [SceneEvent.built (cx, cz)] ∧
      (∃ c, (World.loadChunk height tree w cx cz).1.getChunk cx cz = some c ∧
          c.data =
            (generateChunk height tree ⟨cx, cz, fun _ => (0 : Fin 256), none, none⟩).data) ∧
      (∀ a b : ℤ, ¬ (a = cx ∧ b = cz) →
        (World.loadChunk height tree w cx cz).1.getChunk a b = w.getChunk a b)) := by
  constructor
  · intro hp
    have hpt : (w.getChunk cx cz).isSome = true := hp
    simp only [World.loadChunk, hpt, if_true]
  · intro h
    have hc := (loadChunk_chunks height tree w cx cz h).1
    have hf := getChunk_isSome_false_find w cx cz h
    have hg : (World.loadChunk height tree w cx cz).1.getChunk cx cz =
        some
          ((generateChunk height tree ⟨cx, cz, fun _ => (0 : Fin 256), none, none⟩).buildMesh
            fun wx wy wz =>
              (⟨w.chunks ++
                  [((cx, cz),
                    generateChunk height tree ⟨cx, cz, fun _ => (0 : Fin 256), none, none⟩)],
                w.lastPCX, w.lastPCZ⟩ : World).getBlockWorld wx wy wz).1 := by
      unfold World.getChunk
      rw [hc, List.find?_append, hf]
      simp
    refine ⟨loadChunk_events _ _ _ _ _ h, ⟨_, hg, rfl⟩, ?_⟩
    · intro a b hab
      unfold World.getChunk
      rw [hc, List.find?_append]
      have hsing :
          ([((cx, cz),
            ((generateChunk height tree ⟨cx, cz, fun _ => (0 : Fin 256), none, none⟩).buildMesh
              fun wx wy wz =>
                (⟨w.chunks ++
                    [((cx, cz),
                      generateChunk height tree ⟨cx, cz, fun _ => (0 : Fin 256), none, none⟩)],
                  w.lastPCX, w.lastPCZ⟩ : World).getBlockWorld wx wy wz).1)].find?
            fun e => decide (e.1 = (a, b))) = none := by
        simp only [List.find?]
        have : ¬ ((cx, cz) = (a, b)) := by
          intro hpq
          exact hab ⟨(Prod.mk.injEq _ _ _ _ ▸ hpq).1.symm, (Prod.mk.injEq _ _ _ _ ▸ hpq).2.symm⟩
        simp [this]
      rw [hsing]
      simp

/-- Witness for `loadChunk_spec`: the present case is a no-op and the absent
case emits exactly one build event. -/
theorem loadChunk_spec_witness :
    World.loadChunk (fun _ _ => 5) (fun _ _ => false) oneChunkWorld 0 0 = (oneChunkWorld, []) ∧
      (World.loadChunk (fun _ _ => 5) (fun _ _ => false) oneChunkWorld 1 0).2 =
        [SceneEvent.built (1, 0)] :=
  ⟨(loadChunk_spec (fun _ _ => 5) (fun _ _ => false) oneChunkWorld 0 0).1 (by rfl),
   ((loadChunk_spec (fun _ _ => 5) (fun _ _ => false) oneChunkWorld 1 0).2 (by rfl)).1⟩

/-- C4: the streaming scan `World.update` is a no-op when the observer's chunk
coordinate equals the last scan center; otherwise, on a well-formed registry,
afterwards every chunk within Chebyshev distance 4 (the render distance) of
the new center is loaded, and every loaded chunk is within Chebyshev distance
5 (render distance + 1, the hysteresis band). -/
theorem update_spec (height : ℤ → ℤ → ℤ) (tree : ℤ → ℤ → Bool) (w : World) (px pz : ℚ)
    (hwf : World.WF w) :
    ((w.lastPCX = some ⌊px / 16⌋ ∧ w.lastPCZ = some ⌊pz / 16⌋) →
      World.update height tree w px pz = (w, [])) ∧
    (¬ (w.lastPCX = some ⌊px / 16⌋ ∧ w.lastPCZ = some ⌊pz / 16⌋) →
      (∀ cx cz : ℤ, max |cx - ⌊px / 16⌋| |cz - ⌊pz / 16⌋| ≤ 4 →
        ((World.update height tree w px pz).1.getChunk cx cz).isSome = true) ∧
      (∀ cx cz : ℤ, ((World.update height tree w px pz).1.getChunk cx cz).isSome = true →
        max |cx - ⌊px / 16⌋| |cz - ⌊pz / 16⌋| ≤ 5)) := by
  constructor
  · intro hsame
    simp only [World.update]
    rw [if_pos hsame]
  · intro hdiff
    have h1 : (World.update height tree w px pz).1.chunks =
        (World.loadSquare height tree
          { w with lastPCX := some ⌊px / 16⌋, lastPCZ := some ⌊pz / 16⌋ }
          ⌊px / 16⌋ ⌊pz / 16⌋).1.chunks.filter (keepChunk ⌊px / 16⌋ ⌊pz / 16⌋) := by
      simp only [World.update]
      rw [if_neg hdiff]
      simp only [World.unloadFar]
    have hwf1 : World.WF (World.loadSquare height tree
        { w with lastPCX := some ⌊px / 16⌋, lastPCZ := some ⌊pz / 16⌋ }
        ⌊px / 16⌋ ⌊pz / 16⌋).1 := by
      unfold World.loadSquare
      exact loadSquare_WF height tree _ _ scanPairs _ hwf
    constructor
    · intro cx cz hcheb
      have hbx : |cx - ⌊px / 16⌋| ≤ 4 := le_trans (le_max_left _ _) hcheb
      have hbz : |cz - ⌊pz / 16⌋| ≤ 4 := le_trans (le_max_right _ _) hcheb
      rw [abs_le] at hbx hbz
      have hmem := mem_scanPairs (cx - ⌊px / 16⌋) (cz - ⌊pz / 16⌋) hbx.1 hbx.2 hbz.1 hbz.2
      have hload := loadSquare_isSome_all height tree ⌊px / 16⌋ ⌊pz / 16⌋ scanPairs
        (({ w with lastPCX := some ⌊px / 16⌋, lastPCZ := some ⌊pz / 16⌋ } : World), [])
        _ hmem
      have hlx : ⌊px / 16⌋ + (cx - ⌊px / 16⌋) = cx := by ring
      have hlz : ⌊pz / 16⌋ + (cz - ⌊pz / 16⌋) = cz := by ring
      rw [hlx, hlz] at hload
      have hload2 : ((World.loadSquare height tree
          { w with lastPCX := some ⌊px / 16⌋, lastPCZ := some ⌊pz / 16⌋ }
          ⌊px / 16⌋ ⌊pz / 16⌋).1.getChunk cx cz).isSome = true := hload
      obtain ⟨e, hfe, hkey⟩ := getChunk_isSome_exists _ cx cz hload2
      have hewf := hwf1 e (List.mem_of_find?_eq_some hfe)
      have hkeep : keepChunk ⌊px / 16⌋ ⌊pz / 16⌋ e = true := by
        refine decide_eq_true ?_
        have hcx : e.2.cx = cx := by
          have := hkey ▸ hewf
          exact (Prod.mk.injEq _ _ _ _ ▸ this.symm).1
        have hcz : e.2.cz = cz := by
          have := hkey ▸ hewf
          exact (Prod.mk.injEq _ _ _ _ ▸ this.symm).2
        rw [hcx, hcz]
        constructor
        · rw [abs_le]; omega
        · rw [abs_le]; omega
      unfold World.getChunk
      rw [h1, find?_filter_of_found _ _ _ _ hfe hkeep]
      simp
    · intro cx cz hsome
      unfold World.getChunk at hsome
      rw [h1] at hsome
      cases hfe2 : ((World.loadSquare height tree
          { w with lastPCX := some ⌊px / 16⌋, lastPCZ := some ⌊pz / 16⌋ }
          ⌊px / 16⌋ ⌊pz / 16⌋).1.chunks.filter (keepChunk ⌊px / 16⌋ ⌊pz / 16⌋)).find?
          (fun e => decide (e.1 = (cx, cz))) with
      | none => rw [hfe2] at hsome; simp at hsome
      | some e =>
      have hfe : ((World.loadSquare height tree
          { w with lastPCX := some ⌊px / 16⌋, lastPCZ := some ⌊pz / 16⌋ }
          ⌊px / 16⌋ ⌊pz / 16⌋).1.chunks.filter (keepChunk ⌊px / 16⌋ ⌊pz / 16⌋)).find?
          (fun e => decide (e.1 = (cx, cz))) = some e := hfe2
      have hkey : e.1 = (cx, cz) := by simpa using List.find?_some hfe
      have hmemf : e ∈ (World.loadSquare height tree
          { w with lastPCX := some ⌊px / 16⌋, lastPCZ := some ⌊pz / 16⌋ }
          ⌊px / 16⌋ ⌊pz / 16⌋).1.chunks.filter (keepChunk ⌊px / 16⌋ ⌊pz / 16⌋) :=
        List.mem_of_find?_eq_some hfe
      rw [List.mem_filter] at hmemf
      have hewf := hwf1 e hmemf.1
      have hkeep := of_decide_eq_true hmemf.2
      have hcx : e.2.cx = cx := by
        have := hkey ▸ hewf
        exact (Prod.mk.injEq _ _ _ _ ▸ this.symm).1
      have hcz : e.2.cz = cz := by
        have := hkey ▸ hewf
        exact (Prod.mk.injEq _ _ _ _ ▸ this.symm).2
      rw [hcx, hcz] at hkeep
      exact max_le hkeep.1 hkeep.2

/-- Witness for `update_spec` on the empty world (whose last scan center is
unset, so the scan runs): chunk (0,0) is loaded afterwards. -/
theorem update_spec_witness :
    ((World.update (fun _ _ => 5) (fun _ _ => false) World.empty 0 0).1.getChunk 0 0).isSome
      = true := by
  have h := update_spec (fun _ _ => 5) (fun _ _ => false) World.empty 0 0
    (fun e he => absurd he (by simp [World.empty]))
  have hd : ¬ (World.empty.lastPCX = some ⌊(0 : ℚ) / 16⌋ ∧
      World.empty.lastPCZ = some ⌊(0 : ℚ) / 16⌋) := by
    intro hc
    exact Option.noConfusion hc.1
  have := (h.2 hd).1 0 0 (by norm_num)
  simpa using this

theorem mem_emittedFaces (c : Chunk) (lookup : ℤ → ℤ → ℤ → ℤ) (x y z : ℤ) (i : Fin 6)
    (hin : Chunk.inBounds x y z) :
    ((((x, y, z), i) : Face) ∈ emittedFaces c lookup ↔
      (c.getBlock x y z ≠ 0 ∧
        emitFace (c.getBlock x y z)
          (resolveNeighbor c lookup (x + (faceDirs i).1) (y + (faceDirs i).2.1)
            (z + (faceDirs i).2.2)) = true)) := by
  obtain ⟨hx0, hx1, hy0, hy1, hz0, hz1⟩ := hin
  constructor
  · intro hmem
    simp only [emittedFaces, List.mem_flatMap, List.mem_range] at hmem
    obtain ⟨zn, hzn, yn, hyn, xn, hxn, hmem2⟩ := hmem
    by_cases hb : c.getBlock (xn : ℤ) (yn : ℤ) (zn : ℤ) = 0
    · rw [if_pos hb] at hmem2
      exact absurd hmem2 (by simp)
    · rw [if_neg hb] at hmem2
      simp only [List.mem_filterMap, List.mem_finRange] at hmem2
      obtain ⟨i2, -, hi2⟩ := hmem2
      by_cases he : emitFace (c.getBlock (xn : ℤ) (yn : ℤ) (zn : ℤ))
          (resolveNeighbor c lookup ((xn : ℤ) + (faceDirs i2).1)
            ((yn : ℤ) + (faceDirs i2).2.1) ((zn : ℤ) + (faceDirs i2).2.2)) = true
      · rw [if_pos he] at hi2
        have hi3 := Option.some.inj hi2
        have hxx : (xn : ℤ) = x := congrArg (fun f : Face => f.1.1) hi3
        have hyy : (yn : ℤ) = y := congrArg (fun f : Face => f.1.2.1) hi3
        have hzz : (zn : ℤ) = z := congrArg (fun f : Face => f.1.2.2) hi3
        have hii : i2 = i := congrArg (fun f : Face => f.2) hi3
        subst hxx
        subst hyy
        subst hzz
        subst hii
        exact ⟨hb, he⟩
      · rw [if_neg he] at hi2
        exact absurd hi2 (by simp)
  · rintro ⟨hb, he⟩
    simp only [emittedFaces, List.mem_flatMap, List.mem_range]
    have hxx : ((x.toNat : ℤ)) = x := Int.toNat_of_nonneg hx0
    have hyy : ((y.toNat : ℤ)) = y := Int.toNat_of_nonneg hy0
    have hzz : ((z.toNat : ℤ)) = z := Int.toNat_of_nonneg hz0
    refine ⟨z.toNat, by omega, y.toNat, by omega, x.toNat, by omega, ?_⟩
    rw [hxx, hyy, hzz, if_neg hb]
    simp only [List.mem_filterMap, List.mem_finRange]
    exact ⟨i, trivial, by rw [if_pos he]⟩

theorem mem_waterFaces (c : Chunk) (lookup : ℤ → ℤ → ℤ → ℤ) (x y z : ℤ) (i : Fin 6) :
    ((((x, y, z), i) : Face) ∈ waterFaces c lookup ↔
      ((((x, y, z), i) : Face) ∈ emittedFaces c lookup ∧ c.getBlock x y z = 7)) := by
  unfold waterFaces
  rw [List.mem_filter]
  simp

theorem mem_opaqueFaces (c : Chunk) (lookup : ℤ → ℤ → ℤ → ℤ) (x y z : ℤ) (i : Fin 6) :
    ((((x, y, z), i) : Face) ∈ opaqueFaces c lookup ↔
      ((((x, y, z), i) : Face) ∈ emittedFaces c lookup ∧ c.getBlock x y z ≠ 7)) := by
  unfold opaqueFaces
  rw [List.mem_filter]
  simp

/-- C3 (counterexample): the claim resolves every out-of-chunk neighbor via
the injected lookup, but the code sends only horizontally out-of-range
neighbors to the lookup — a vertically out-of-range neighbor (above the top
or below the bottom of the chunk) is resolved locally to the sentinel -1.
With a lookup that reports STONE everywhere, the code emits the top face of a
STONE voxel at local height 63 (local neighbor is the sentinel), while the
claim's resolution (lookup gives STONE, non-transparent, not unknown) says no
face is emitted. -/
theorem buildMesh_claim_counterexample :
    ¬ buildMeshClaim stoneTopChunk (fun _ _ _ => 3) := by
  intro hcl
  have h := (hcl 0 63 0 0 (by decide) (by decide)).2 (by decide)
  have hmem : (((0, 63, 0), (0 : Fin 6)) : Face) ∈
      opaqueFaces stoneTopChunk (fun _ _ _ => 3) := by
    rw [mem_opaqueFaces]
    refine ⟨?_, by decide⟩
    rw [mem_emittedFaces stoneTopChunk (fun _ _ _ => 3) 0 63 0 0 (by decide)]
    exact ⟨by decide, by decide⟩
  have hres := h.mp hmem
  exact absurd hres (by decide)

/-- C3 (amended): in `buildMesh`, for every non-AIR voxel and each face
direction, with the adjacent voxel resolved locally when it is within the
chunk's horizontal bounds (vertically out-of-range neighbors resolve locally
to the unknown sentinel) and via the injected neighbor lookup only when
horizontally outside: a WATER face is emitted exactly when the resolved
neighbor is AIR, and an opaque face exactly when the resolved neighbor is
transparent (AIR or WATER) or the unknown sentinel. -/
theorem buildMesh_emission_spec (c : Chunk) (lookup : ℤ → ℤ → ℤ → ℤ) (x y z : ℤ) (i : Fin 6)
    (hin : Chunk.inBounds x y z) (hb : c.getBlock x y z ≠ 0) :
    (c.getBlock x y z = 7 →
      ((((x, y, z), i) : Face) ∈ waterFaces c lookup ↔
        resolveNeighbor c lookup (x + (faceDirs i).1) (y + (faceDirs i).2.1)
          (z + (faceDirs i).2.2) = 0)) ∧
    (c.getBlock x y z ≠ 7 →
      ((((x, y, z), i) : Face) ∈ opaqueFaces c lookup ↔
        (TRANSPARENT
            (resolveNeighbor c lookup (x + (faceDirs i).1) (y + (faceDirs i).2.1)
              (z + (faceDirs i).2.2)) = true ∨
          resolveNeighbor c lookup (x + (faceDirs i).1) (y + (faceDirs i).2.1)
            (z + (faceDirs i).2.2) = -1))) := by
  constructor
  · intro hw
    rw [mem_waterFaces]
    rw [mem_emittedFaces c lookup x y z i hin]
    unfold emitFace
    rw [hw, if_pos rfl]
    simp
  · intro hnw
    rw [mem_opaqueFaces]
    rw [mem_emittedFaces c lookup x y z i hin]
    unfold emitFace
    rw [if_neg hnw]
    constructor
    · rintro ⟨⟨-, hemit⟩, -⟩
      by_cases hT : TRANSPARENT (resolveNeighbor c lookup (x + (faceDirs i).1)
          (y + (faceDirs i).2.1) (z + (faceDirs i).2.2)) = true
      · exact Or.inl hT
      · right
        have hTf : TRANSPARENT (resolveNeighbor c lookup (x + (faceDirs i).1)
            (y + (faceDirs i).2.1) (z + (faceDirs i).2.2)) = false := by
          cases hv : TRANSPARENT (resolveNeighbor c lookup (x + (faceDirs i).1)
              (y + (faceDirs i).2.1) (z + (faceDirs i).2.2))
          · rfl
          · exact absurd hv hT
        rw [hTf] at hemit
        simpa using hemit
    · intro hres
      refine ⟨⟨hb, ?_⟩, hnw⟩
      rcases hres with hT | hs
      · rw [hT]
        simp
      · rw [hs]
        simp [TRANSPARENT]

/-- Witness for `buildMesh_emission_spec`: the top face of the STONE voxel at
the top of the fixture chunk is emitted (its local vertical neighbor is the
sentinel). -/
theorem buildMesh_emission_spec_witness :
    (((0, 63, 0), (0 : Fin 6)) : Face) ∈ opaqueFaces stoneTopChunk (fun _ _ _ => 0) :=
  ((buildMesh_emission_spec stoneTopChunk (fun _ _ _ => 0) 0 63 0 0 (by decide)
      (by decide)).2 (by decide)).mpr (Or.inr (by decide))

theorem getBlockWorld_eq (w : World) (wx wy wz : ℤ) :
    w.getBlockWorld wx wy wz =
      match w.getChunk (wx / 16) (wz / 16) with
      | none => 0
      | some c => c.getBlock (World.localOf wx) wy (World.localOf wz) := by
  unfold World.getBlockWorld
  rw [chunkOf_eq_ediv, chunkOf_eq_ediv]

theorem collideLoop_find (w : World) (axis : Axis) (st : PlayerState) :
    ∀ (l : List (ℚ × ℚ × ℚ)) (off : ℚ × ℚ × ℚ),
      l.find? (fun o => isSolidBlock (probeBlock w st o)) = some off →
      collideLoop w axis st l =
        collideResponse axis st off ⌊st.pos.x + off.1⌋ ⌊st.pos.y + off.2.1⌋
          ⌊st.pos.z + off.2.2⌋ := by
  intro l
  induction l with
  | nil => intro off h; simp at h
  | cons o rest ih =>
      intro off h
      simp only [List.find?_cons] at h
      by_cases hs : isSolidBlock (probeBlock w st o) = true
      · rw [hs] at h
        have h2 : some o = some off := h
        have : o = off := by simpa using h2
        subst this
        unfold collideLoop
        rw [if_pos hs]
      · have hsf : isSolidBlock (probeBlock w st o) = false := by
          cases hv : isSolidBlock (probeBlock w st o)
          · rfl
          · exact absurd hv hs
        rw [hsf] at h
        have h2 : List.find? (fun o => isSolidBlock (probeBlock w st o)) rest = some off := h
        unfold collideLoop
        rw [if_neg (by simp [hsf])]
        exact ih off h2

/-- C5: in each `collideAxis` pass, when the first probe lands in a solid
(non-AIR, non-WATER, non-sentinel) voxel, the position is clamped to that
voxel's boundary on the pass's axis and that axis's velocity component is
zeroed; a downward-resolved vertical collision sets the grounded flag, and a
vertical pass ending with non-zero vertical velocity clears it. -/
theorem collideAxis_spec (w : World) (axis : Axis) (st : PlayerState) :
    (∀ off : ℚ × ℚ × ℚ,
      (collideOffsets axis).find? (fun o => isSolidBlock (probeBlock w st o)) = some off →
      ((axis = Axis.y →
          ((Player.collideAxis w axis st).vel.y = 0 ∧
           (st.vel.y < 0 →
             (Player.collideAxis w axis st).pos.y = (⌊st.pos.y + off.2.1⌋ : ℚ) + 1 ∧
             (Player.collideAxis w axis st).onGround = true) ∧
           (¬ st.vel.y < 0 →
             (Player.collideAxis w axis st).pos.y =
               (⌊st.pos.y + off.2.1⌋ : ℚ) - PLAYER_HEIGHT))) ∧
       (axis = Axis.x →
          ((Player.collideAxis w axis st).vel.x = 0 ∧
           (Player.collideAxis w axis st).pos.x =
             (if off.1 > 0 then (⌊st.pos.x + off.1⌋ : ℚ) - PLAYER_WIDTH / 2
              else (⌊st.pos.x + off.1⌋ : ℚ) + 1 + PLAYER_WIDTH / 2))) ∧
       (axis = Axis.z →
          ((Player.collideAxis w axis st).vel.z = 0 ∧
           (Player.collideAxis w axis st).pos.z =
             (if off.2.2 > 0 then (⌊st.pos.z + off.2.2⌋ : ℚ) - PLAYER_WIDTH / 2
              else (⌊st.pos.z + off.2.2⌋ : ℚ) + 1 + PLAYER_WIDTH / 2))))) ∧
    (axis = Axis.y → (Player.collideAxis w axis st).vel.y ≠ 0 →
      (Player.collideAxis w axis st).onGround = false) := by
  constructor
  · intro off hfind
    have hloop := collideLoop_find w axis st (collideOffsets axis) off hfind
    refine ⟨?_, ?_, ?_⟩
    · intro hax
      subst hax
      unfold Player.collideAxis
      rw [hloop]
      by_cases hd : st.vel.y < 0
      · simp only [collideResponse, if_pos hd]
        refine ⟨by simp, fun _ => ⟨by simp, by simp⟩, fun hnd => absurd hd hnd⟩
      · simp only [collideResponse, if_neg hd]
        refine ⟨by simp, fun hdd => absurd hdd hd, fun _ => by simp⟩
    · intro hax
      subst hax
      unfold Player.collideAxis
      rw [hloop]
      simp only [collideResponse]
      constructor
      · simp
      · simp
    · intro hax
      subst hax
      unfold Player.collideAxis
      rw [hloop]
      simp only [collideResponse]
      constructor
      · simp
      · simp
  · intro hax hvy
    subst hax
    unfold Player.collideAxis at hvy ⊢
    by_cases hc : (Axis.y = Axis.y ∧
        (collideLoop w Axis.y st (collideOffsets Axis.y)).vel.y ≠ 0)
    · rw [if_pos hc]
    · rw [if_neg hc] at hvy
      exact absurd ⟨rfl, hvy⟩ hc

/-- Witness for `collideAxis_spec`: a falling player whose first feet probe
lands in the stone voxel at world (0,63,0) is clamped to its top surface at
height 64, has vertical velocity zeroed, and becomes grounded. -/
theorem collideAxis_spec_witness :
    (Player.collideAxis stoneWorld Axis.y collideFixtureState).vel.y = 0 ∧
    (Player.collideAxis stoneWorld Axis.y collideFixtureState).pos.y = 64 ∧
    (Player.collideAxis stoneWorld Axis.y collideFixtureState).onGround = true := by
  have hx : (⌊(1 / 2 : ℚ) + -(PLAYER_WIDTH / 2)⌋ : ℤ) = 0 := by
    rw [Int.floor_eq_iff]
    norm_num [PLAYER_WIDTH]
  have hy : (⌊(127 / 2 : ℚ) + 0⌋ : ℤ) = 63 := by
    rw [Int.floor_eq_iff]
    norm_num
  have hprobe : probeBlock stoneWorld collideFixtureState
      (-(PLAYER_WIDTH / 2), 0, -(PLAYER_WIDTH / 2)) = 3 := by
    show stoneWorld.getBlockWorld ⌊(1 / 2 : ℚ) + -(PLAYER_WIDTH / 2)⌋
      ⌊(127 / 2 : ℚ) + 0⌋ ⌊(1 / 2 : ℚ) + -(PLAYER_WIDTH / 2)⌋ = 3
    rw [hx, hy, getBlockWorld_eq]
    rfl
  have hstrue : isSolidBlock (probeBlock stoneWorld collideFixtureState
      (-(PLAYER_WIDTH / 2), 0, -(PLAYER_WIDTH / 2))) = true := by
    rw [hprobe]
    decide
  have hfind : (collideOffsets Axis.y).find?
      (fun o => isSolidBlock (probeBlock stoneWorld collideFixtureState o)) =
      some (-(PLAYER_WIDTH / 2), 0, -(PLAYER_WIDTH / 2)) := by
    simp only [collideOffsets, List.find?_cons]
    rw [hstrue]
  have h := (collideAxis_spec stoneWorld Axis.y collideFixtureState).1
    (-(PLAYER_WIDTH / 2), 0, -(PLAYER_WIDTH / 2)) hfind
  have hh := h.1 rfl
  have hneg : collideFixtureState.vel.y < 0 := by
    norm_num [collideFixtureState]
  refine ⟨hh.1, ?_, (hh.2.1 hneg).2⟩
  have hpy := (hh.2.1 hneg).1
  rw [hpy]
  have : (⌊collideFixtureState.pos.y + (-(PLAYER_WIDTH / 2), (0 : ℚ),
      -(PLAYER_WIDTH / 2)).2.1⌋ : ℤ) = 63 := hy
  rw [this]
  norm_num

theorem fade_nonneg (t : ℚ) (h0 : 0 ≤ t) : 0 ≤ SimplexNoise.fade t := by
  unfold SimplexNoise.fade
  have hq : 0 ≤ t * (t * 6 - 15) + 10 := by nlinarith [sq_nonneg (4 * t - 5)]
  have hc : 0 ≤ t * t * t := by positivity
  nlinarith [mul_nonneg hc hq]

theorem fade_le_one (t : ℚ) (h1 : t ≤ 1) : SimplexNoise.fade t ≤ 1 := by
  have hsym : 1 - SimplexNoise.fade t = SimplexNoise.fade (1 - t) := by
    unfold SimplexNoise.fade
    ring
  have := fade_nonneg (1 - t) (by linarith)
  linarith

theorem weight_half (t : ℚ) (h0 : 0 ≤ t) (h1 : t ≤ 1) :
    (1 - SimplexNoise.fade t) * t + SimplexNoise.fade t * (1 - t) ≤ 1 / 2 := by
  have hq : 0 ≤ 6 * t ^ 4 - 12 * t ^ 3 + 4 * t ^ 2 + 2 * t + 1 := by
    nlinarith [sq_nonneg (t * (1 - t)), mul_nonneg h0 (sub_nonneg.mpr h1)]
  have hid : (1 - SimplexNoise.fade t) * t + SimplexNoise.fade t * (1 - t) - 1 / 2 =
      -(2 * ((t - 1 / 2) ^ 2 * (6 * t ^ 4 - 12 * t ^ 3 + 4 * t ^ 2 + 2 * t + 1))) := by
    unfold SimplexNoise.fade
    ring
  have hprod : 0 ≤ (t - 1 / 2) ^ 2 * (6 * t ^ 4 - 12 * t ^ 3 + 4 * t ^ 2 + 2 * t + 1) :=
    mul_nonneg (sq_nonneg _) hq
  linarith

theorem grad_abs_le (h : ℕ) (x y : ℚ) : |SimplexNoise.grad h x y| ≤ |x| + |y| := by
  unfold SimplexNoise.grad
  split_ifs <;>
    (refine le_trans (abs_add _ _) ?_
     try simp only [abs_neg]
     linarith)

theorem lerp_abs_le (a b t A B : ℚ) (ht0 : 0 ≤ t) (ht1 : t ≤ 1) (ha : |a| ≤ A)
    (hb : |b| ≤ B) : |SimplexNoise.lerp a b t| ≤ (1 - t) * A + t * B := by
  have hrw : SimplexNoise.lerp a b t = (1 - t) * a + t * b := by
    unfold SimplexNoise.lerp
    ring
  rw [hrw]
  have h1 : |(1 - t) * a + t * b| ≤ |(1 - t) * a| + |t * b| := abs_add _ _
  have h2 : |(1 - t) * a| = (1 - t) * |a| := by
    rw [abs_mul, abs_of_nonneg (by linarith : (0 : ℚ) ≤ 1 - t)]
  have h3 : |t * b| = t * |b| := by
    rw [abs_mul, abs_of_nonneg ht0]
  have h4 := mul_le_mul_of_nonneg_left ha (by linarith : (0 : ℚ) ≤ 1 - t)
  have h5 := mul_le_mul_of_nonneg_left hb ht0
  linarith

theorem noise_core_bound (h1 h2 h3 h4 : ℕ) (x y : ℚ) :
    |SimplexNoise.lerp
      (SimplexNoise.lerp (SimplexNoise.grad h1 (x - ⌊x⌋) (y - ⌊y⌋))
        (SimplexNoise.grad h2 (x - ⌊x⌋ - 1) (y - ⌊y⌋)) (SimplexNoise.fade (x - ⌊x⌋)))
      (SimplexNoise.lerp (SimplexNoise.grad h3 (x - ⌊x⌋) (y - ⌊y⌋ - 1))
        (SimplexNoise.grad h4 (x - ⌊x⌋ - 1) (y - ⌊y⌋ - 1)) (SimplexNoise.fade (x - ⌊x⌋)))
      (SimplexNoise.fade (y - ⌊y⌋))| ≤ 1 := by
  have hx0 : 0 ≤ x - ⌊x⌋ := by linarith [Int.floor_le x]
  have hx1 : x - ⌊x⌋ ≤ 1 := by linarith [Int.lt_floor_add_one x]
  have hy0 : 0 ≤ y - ⌊y⌋ := by linarith [Int.floor_le y]
  have hy1 : y - ⌊y⌋ ≤ 1 := by linarith [Int.lt_floor_add_one y]
  have hu0 : 0 ≤ SimplexNoise.fade (x - ⌊x⌋) := fade_nonneg _ hx0
  have hu1 : SimplexNoise.fade (x - ⌊x⌋) ≤ 1 := fade_le_one _ hx1
  have hv0 : 0 ≤ SimplexNoise.fade (y - ⌊y⌋) := fade_nonneg _ hy0
  have hv1 : SimplexNoise.fade (y - ⌊y⌋) ≤ 1 := fade_le_one _ hy1
  have hg1 : |SimplexNoise.grad h1 (x - ⌊x⌋) (y - ⌊y⌋)| ≤ (x - ⌊x⌋) + (y - ⌊y⌋) := by
    have := grad_abs_le h1 (x - ⌊x⌋) (y - ⌊y⌋)
    rwa [abs_of_nonneg hx0, abs_of_nonneg hy0] at this
  have hxm : x - ((⌊x⌋ : ℤ) : ℚ) - 1 ≤ 0 := by linarith
  have hym : y - ((⌊y⌋ : ℤ) : ℚ) - 1 ≤ 0 := by linarith
  have hg2 : |SimplexNoise.grad h2 (x - ⌊x⌋ - 1) (y - ⌊y⌋)| ≤ (1 - (x - ⌊x⌋)) + (y - ⌊y⌋) := by
    have := grad_abs_le h2 (x - ⌊x⌋ - 1) (y - ⌊y⌋)
    rw [abs_of_nonpos hxm, abs_of_nonneg hy0] at this
    have heq : -(x - ((⌊x⌋ : ℤ) : ℚ) - 1) = 1 - (x - ⌊x⌋) := by ring
    rwa [heq] at this
  have hg3 : |SimplexNoise.grad h3 (x - ⌊x⌋) (y - ⌊y⌋ - 1)| ≤ (x - ⌊x⌋) + (1 - (y - ⌊y⌋)) := by
    have := grad_abs_le h3 (x - ⌊x⌋) (y - ⌊y⌋ - 1)
    rw [abs_of_nonneg hx0, abs_of_nonpos hym] at this
    have heq : -(y - ((⌊y⌋ : ℤ) : ℚ) - 1) = 1 - (y - ⌊y⌋) := by ring
    rwa [heq] at this
  have hg4 : |SimplexNoise.grad h4 (x - ⌊x⌋ - 1) (y - ⌊y⌋ - 1)| ≤
      (1 - (x - ⌊x⌋)) + (1 - (y - ⌊y⌋)) := by
    have := grad_abs_le h4 (x - ⌊x⌋ - 1) (y - ⌊y⌋ - 1)
    rw [abs_of_nonpos hxm, abs_of_nonpos hym] at this
    have heqx : -(x - ((⌊x⌋ : ℤ) : ℚ) - 1) = 1 - (x - ⌊x⌋) := by ring
    have heqy : -(y - ((⌊y⌋ : ℤ) : ℚ) - 1) = 1 - (y - ⌊y⌋) := by ring
    rwa [heqx, heqy] at this
  have hb1 := lerp_abs_le _ _ _ _ _ hu0 hu1 hg1 hg2
  have hb2 := lerp_abs_le _ _ _ _ _ hu0 hu1 hg3 hg4
  have hb := lerp_abs_le _ _ _ _ _ hv0 hv1 hb1 hb2
  have hwx := weight_half (x - ⌊x⌋) hx0 hx1
  have hwy := weight_half (y - ⌊y⌋) hy0 hy1
  have hsum : (1 - SimplexNoise.fade (y - ⌊y⌋)) *
        ((1 - SimplexNoise.fade (x - ⌊x⌋)) * ((x - ⌊x⌋) + (y - ⌊y⌋)) +
          SimplexNoise.fade (x - ⌊x⌋) * ((1 - (x - ⌊x⌋)) + (y - ⌊y⌋))) +
      SimplexNoise.fade (y - ⌊y⌋) *
        ((1 - SimplexNoise.fade (x - ⌊x⌋)) * ((x - ⌊x⌋) + (1 - (y - ⌊y⌋))) +
          SimplexNoise.fade (x - ⌊x⌋) * ((1 - (x - ⌊x⌋)) + (1 - (y - ⌊y⌋)))) =
      ((1 - SimplexNoise.fade (x - ⌊x⌋)) * (x - ⌊x⌋) +
        SimplexNoise.fade (x - ⌊x⌋) * (1 - (x - ⌊x⌋))) +
      ((1 - SimplexNoise.fade (y - ⌊y⌋)) * (y - ⌊y⌋) +
        SimplexNoise.fade (y - ⌊y⌋) * (1 - (y - ⌊y⌋))) := by
    ring
  linarith

theorem noise2D_abs_le_one (n : SimplexNoise) (x y : ℚ) : |n.noise2D x y| ≤ 1 := by
  unfold SimplexNoise.noise2D
  exact noise_core_bound _ _ _ _ x y

theorem octavesLoop_bound (n : SimplexNoise) (x y pers : ℚ) (hp : 0 < pers) :
    ∀ (k : ℕ) (amp freq val maxAmp : ℚ), 0 < amp → |val| ≤ maxAmp →
      (|(SimplexNoise.octavesLoop n x y pers k amp freq val maxAmp).1| ≤
        (SimplexNoise.octavesLoop n x y pers k amp freq val maxAmp).2 ∧
       maxAmp ≤ (SimplexNoise.octavesLoop n x y pers k amp freq val maxAmp).2 ∧
       (1 ≤ k → maxAmp + amp ≤
         (SimplexNoise.octavesLoop n x y pers k amp freq val maxAmp).2)) := by
  intro k
  induction k with
  | zero =>
      intro amp freq val maxAmp ha hv
      exact ⟨hv, le_refl _, fun h => absurd h (by omega)⟩
  | succ k ih =>
      intro amp freq val maxAmp ha hv
      have hnoise := noise2D_abs_le_one n (x * freq) (y * freq)
      have hstep : |val + n.noise2D (x * freq) (y * freq) * amp| ≤ maxAmp + amp := by
        have h1 : |val + n.noise2D (x * freq) (y * freq) * amp| ≤
            |val| + |n.noise2D (x * freq) (y * freq) * amp| := abs_add _ _
        have h2 : |n.noise2D (x * freq) (y * freq) * amp| =
            |n.noise2D (x * freq) (y * freq)| * amp := by
          rw [abs_mul, abs_of_nonneg (le_of_lt ha)]
        have h3 : |n.noise2D (x * freq) (y * freq)| * amp ≤ 1 * amp :=
          mul_le_mul_of_nonneg_right hnoise (le_of_lt ha)
        linarith
      have ih2 := ih (amp * pers) (freq * 2)
        (val + n.noise2D (x * freq) (y * freq) * amp) (maxAmp + amp)
        (mul_pos ha hp) hstep
      unfold SimplexNoise.octavesLoop
      refine ⟨ih2.1, ?_, fun _ => ih2.2.1⟩
      have := ih2.2.1
      linarith

/-- C8: for every seed (covered by quantifying over all permutation tables),
every point, every octave count at least 1, every positive persistence and
every scale, `octaves` lies in the closed interval [-1, 1]: the per-layer sum
is normalized by the summed amplitude. -/
theorem octaves_in_unit_interval (perm : ℕ → ℕ) (x y : ℚ) (count : ℕ)
    (persistence scale : ℚ) (hc : 1 ≤ count) (hp : 0 < persistence) :
    -1 ≤ SimplexNoise.octaves ⟨perm⟩ x y count persistence scale ∧
      SimplexNoise.octaves ⟨perm⟩ x y count persistence scale ≤ 1 := by
  have h := octavesLoop_bound ⟨perm⟩ x y persistence hp count 1 scale 0 0 one_pos
    (by simp)
  have hm : 1 ≤ (SimplexNoise.octavesLoop ⟨perm⟩ x y persistence count 1 scale 0 0).2 := by
    have := h.2.2 hc
    linarith
  have habs : |SimplexNoise.octaves ⟨perm⟩ x y count persistence scale| ≤ 1 := by
    unfold SimplexNoise.octaves
    rw [abs_div, abs_of_nonneg (by linarith :
      (0 : ℚ) ≤ (SimplexNoise.octavesLoop ⟨perm⟩ x y persistence count 1 scale 0 0).2)]
    rw [div_le_one (by linarith)]
    exact h.1
  rw [abs_le] at habs
  exact habs

/-- Witness for `octaves_in_unit_interval` at a concrete table and inputs. -/
theorem octaves_in_unit_interval_witness :
    -1 ≤ SimplexNoise.octaves ⟨fun _ => 0⟩ 0 0 1 1 1 ∧
      SimplexNoise.octaves ⟨fun _ => 0⟩ 0 0 1 1 1 ≤ 1 :=
  octaves_in_unit_interval (fun _ => 0) 0 0 1 1 1 (le_refl 1) one_pos

/-- C2 (counterexample): on a ray through a voxel edge (the x and y boundary
crossings coincide at t = 3/4), the player's raycast against `tieWorld`
reports a hit in voxel (0,1,0) that the ray only touches at a single corner
point and never enters: the ray's x and y coordinates are identical for all
t, so no cell with x-floor 0 and y-floor 1 is ever occupied.  The camera
direction is the unit vector (2/3, 2/3, -1/3), realizable from yaw/pitch,
and the corner lies at distance 3/4 < REACH. -/
theorem raycast_claim_counterexample : ¬ raycastClaim tieWorld tiePos tieDir := by
  intro hcl
  have hfl : (⌊(1 / 2 : ℚ)⌋ : ℤ) = 0 := by
    rw [Int.floor_eq_iff]
    norm_num
  have hblock : World.getBlockWorld tieWorld 0 1 0 = 3 := by
    have hc : World.chunkOf 0 = 0 := by
      rw [chunkOf_eq_ediv]
      decide
    unfold World.getBlockWorld
    rw [hc]
    decide
  have hres : Player.raycast tieWorld tiePos tieDir = some ((0, 1, 0), (0, 0, 0)) := by
    have ha1 : |(2 / 3 : ℚ)| = 2 / 3 := abs_of_pos (by norm_num)
    have ha2 : |(1 / 3 : ℚ)| = 1 / 3 := abs_of_pos (by norm_num)
    have ha3 : |(3 / 2 : ℚ)| = 3 / 2 := abs_of_pos (by norm_num)
    have ha4 : |(-3 : ℚ)| = 3 := by rw [abs_neg]; exact abs_of_pos (by norm_num)
    have e0 : Player.raycast tieWorld tiePos tieDir =
        rayLoop (fun a b c => World.getBlockWorld tieWorld a b c) 1 1 (-1)
          (some (3 / 2)) (some (3 / 2)) (some 3)
          64 0 0 0 (some (3 / 4)) (some (3 / 4)) (some (3 / 2)) := by
      unfold Player.raycast raycastCore tiePos tieDir
      norm_num [stepOf, tdOf, tmInit, hfl, ha1, ha2, ha3, ha4, abs_neg]
    have c1 : oLT (oMin (some (3 / 4 : ℚ)) (oMin (some (3 / 4 : ℚ)) (some (3 / 2 : ℚ))))
        (some REACH) = true := by
      norm_num [oLT, oMin, REACH, min_def]
    have c2 : (oLT (some (3 / 4 : ℚ)) (some (3 / 4 : ℚ)) &&
        oLT (some (3 / 4 : ℚ)) (some (3 / 2 : ℚ))) = false := by
      norm_num [oLT]
    have c3 : oLT (some (3 / 4 : ℚ)) (some (3 / 2 : ℚ)) = true := by
      norm_num [oLT]
    have c4 : raycastHit (World.getBlockWorld tieWorld 0 (0 + 1) 0) = true := by
      norm_num [raycastHit, hblock]
    rw [e0, show (64 : ℕ) = 63 + 1 from rfl, rayLoop, if_pos c1,
      if_neg (by rw [c2]; exact Bool.false_ne_true), if_pos c3, if_pos c4]
    norm_num
  unfold raycastClaim at hcl
  rw [hres] at hcl
  obtain ⟨-, ⟨t, -, -, hcell⟩, -, -⟩ := hcl
  simp only [cellAt, tiePos, tieDir, Prod.mk.injEq] at hcell
  obtain ⟨h1, h2, -⟩ := hcell
  rw [h1] at h2
  exact absurd h2 (by norm_num)

theorem tdOf_pos (dA : ℚ) (h : 0 < dA) : tdOf dA = some (1 / dA) := by
  unfold tdOf
  rw [if_neg (ne_of_gt h), abs_of_pos (by positivity)]

theorem tdOf_neg (dA : ℚ) (h : dA < 0) : tdOf dA = some (-(1 / dA)) := by
  unfold tdOf
  rw [if_neg (ne_of_lt h), abs_of_neg (one_div_neg.mpr h)]

theorem rayBranchX (tMX tMY tMZ : Option ℚ)
    (h1 : oLT tMX tMY = true) (h2 : oLT tMX tMZ = true)
    (hloop : oLT (oMin tMX (oMin tMY tMZ)) (some REACH) = true) :
    ∃ tmx, tMX = some tmx ∧ tmx < REACH ∧
      (∀ q, tMY = some q → tmx < q) ∧ (∀ q, tMZ = some q → tmx < q) := by
  cases tMX with
  | none => simp [oLT] at h1
  | some tmx =>
      refine ⟨tmx, rfl, ?_, ?_, ?_⟩
      · cases tMY with
        | none =>
            cases tMZ with
            | none => simpa [oLT, oMin, REACH] using hloop
            | some tmz =>
                simp [oLT] at h2
                simp only [oLT, oMin, min_def] at hloop
                split_ifs at hloop <;> simp [REACH] at hloop ⊢ <;> linarith
        | some tmy =>
            simp [oLT] at h1
            cases tMZ with
            | none =>
                simp only [oLT, oMin, min_def] at hloop
                split_ifs at hloop <;> simp [REACH] at hloop ⊢ <;> linarith
            | some tmz =>
                simp [oLT] at h2
                simp only [oLT, oMin, min_def] at hloop
                split_ifs at hloop <;> simp [REACH] at hloop ⊢ <;> linarith
      · intro q hq
        subst hq
        simpa [oLT] using h1
      · intro q hq
        subst hq
        simpa [oLT] using h2

theorem rayBranchY (tMX tMY tMZ : Option ℚ)
    (h1 : (oLT tMX tMY && oLT tMX tMZ) = false) (h2 : oLT tMY tMZ = true)
    (hloop : oLT (oMin tMX (oMin tMY tMZ)) (some REACH) = true) :
    ∃ tmy, tMY = some tmy ∧ tmy < REACH ∧
      (∀ q, tMX = some q → tmy ≤ q) ∧ (∀ q, tMZ = some q → tmy < q) := by
  cases tMY with
  | none => simp [oLT] at h2
  | some tmy =>
      have hxle : ∀ q, tMX = some q → tmy ≤ q := by
        intro q hq
        subst hq
        cases tMZ with
        | none => simp [oLT] at h1; linarith
        | some tmz =>
            simp [oLT] at h1 h2
            by_contra hlt
            push_neg at hlt
            rcases h1 (by linarith) with h
            linarith
      refine ⟨tmy, rfl, ?_, hxle, ?_⟩
      · cases tMX with
        | none =>
            cases tMZ with
            | none => simpa [oLT, oMin, REACH] using hloop
            | some tmz =>
                simp [oLT] at h2
                simp only [oLT, oMin, min_def] at hloop
                split_ifs at hloop <;> simp [REACH] at hloop ⊢ <;> linarith
        | some tmx =>
            have := hxle tmx rfl
            cases tMZ with
            | none =>
                simp only [oLT, oMin, min_def] at hloop
                split_ifs at hloop <;> simp [REACH] at hloop ⊢ <;> linarith
            | some tmz =>
                simp [oLT] at h2
                simp only [oLT, oMin, min_def] at hloop
                split_ifs at hloop <;> simp [REACH] at hloop ⊢ <;> linarith
      · intro q hq
        subst hq
        simpa [oLT] using h2

theorem rayBranchZ (tMX tMY tMZ : Option ℚ)
    (h1 : (oLT tMX tMY && oLT tMX tMZ) = false) (h2 : oLT tMY tMZ = false)
    (hloop : oLT (oMin tMX (oMin tMY tMZ)) (some REACH) = true) :
    ∃ tmz, tMZ = some tmz ∧ tmz < REACH ∧
      (∀ q, tMX = some q → tmz ≤ q) ∧ (∀ q, tMY = some q → tmz ≤ q) := by
  cases tMZ with
  | none =>
      cases tMY with
      | some tmy => simp [oLT] at h2
      | none =>
          cases tMX with
          | none => simp [oLT, oMin] at hloop
          | some tmx => simp [oLT] at h1
  | some tmz =>
      have hyle : ∀ q, tMY = some q → tmz ≤ q := by
        intro q hq
        subst hq
        simp [oLT] at h2
        linarith
      have hxle : ∀ q, tMX = some q → tmz ≤ q := by
        intro q hq
        subst hq
        cases tMY with
        | none => simp [oLT] at h1; linarith
        | some tmy =>
            have hzy := hyle tmy rfl
            simp [oLT] at h1
            by_contra hlt
            push_neg at hlt
            rcases h1 (by linarith) with h
            linarith
      refine ⟨tmz, rfl, ?_, hxle, hyle⟩
      cases tMX with
      | none =>
          cases tMY with
          | none => simpa [oLT, oMin, REACH] using hloop
          | some tmy =>
              have := hyle tmy rfl
              simp only [oLT, oMin, min_def] at hloop
              split_ifs at hloop <;> simp [REACH] at hloop ⊢ <;> linarith
      | some tmx =>
          have := hxle tmx rfl
          cases tMY with
          | none =>
              simp only [oLT, oMin, min_def] at hloop
              split_ifs at hloop <;> simp [REACH] at hloop ⊢ <;> linarith
          | some tmy =>
              have := hyle tmy rfl
              simp only [oLT, oMin, min_def] at hloop
              split_ifs at hloop <;> simp [REACH] at hloop ⊢ <;> linarith

theorem axisInv_floor (pA dA : ℚ) (iA : ℤ) (tM : Option ℚ) (tCur t : ℚ)
    (h : AxisInv pA dA iA tM tCur) (ht : tCur < t)
    (hb : ∀ q, tM = some q → t < q) :
    ⌊pA + t * dA⌋ = iA := by
  rcases lt_trichotomy dA 0 with hneg | hzero | hpos
  · obtain ⟨tm, htm, hle, hcross, hin⟩ := h.2.2 hneg
    have htb := hb tm htm
    rw [Int.floor_eq_iff]
    constructor
    · nlinarith
    · push_cast
      nlinarith
  · obtain ⟨-, hfl⟩ := h.1 hzero
    rw [hzero]
    simpa using hfl
  · obtain ⟨tm, htm, hle, hcross, hin⟩ := h.2.1 hpos
    have htb := hb tm htm
    rw [Int.floor_eq_iff]
    constructor
    · nlinarith
    · push_cast
      nlinarith

theorem cellAt_window (p d : V3) (ix iy iz : ℤ) (tMX tMY tMZ : Option ℚ) (tCur t : ℚ)
    (hx : AxisInv p.x d.x ix tMX tCur) (hy : AxisInv p.y d.y iy tMY tCur)
    (hz : AxisInv p.z d.z iz tMZ tCur) (ht : tCur < t)
    (hbx : ∀ q, tMX = some q → t < q) (hby : ∀ q, tMY = some q → t < q)
    (hbz : ∀ q, tMZ = some q → t < q) :
    cellAt p d t = (ix, iy, iz) := by
  unfold cellAt
  rw [axisInv_floor p.x d.x ix tMX tCur t hx ht hbx,
    axisInv_floor p.y d.y iy tMY tCur t hy ht hby,
    axisInv_floor p.z d.z iz tMZ tCur t hz ht hbz]

theorem floor_of_intCast_eq (r : ℚ) (k : ℤ) (h : r = (k : ℚ)) : ⌊r⌋ = k := by
  rw [h]
  exact Int.floor_intCast k

theorem axisCount_dec (tm td : ℚ) (htd : 0 < td) (h5 : tm < REACH) :
    axisCount (some (tm + td)) (some td) + 1 = axisCount (some tm) (some td) := by
  have hdiv : (REACH - (tm + td)) / td = (REACH - tm) / td - 1 := by
    field_simp
    ring
  show (Int.ceil ((REACH - (tm + td)) / td)).toNat + 1 =
    (Int.ceil ((REACH - tm) / td)).toNat
  rw [hdiv, Int.ceil_sub_one]
  have hpos : 1 ≤ Int.ceil ((REACH - tm) / td) :=
    Int.ceil_pos.mpr (div_pos (by linarith) htd)
  omega

theorem axisCount_le_five (tm td : ℚ) (htm : 0 ≤ tm) (htd : 1 ≤ td) :
    axisCount (some tm) (some td) ≤ 5 := by
  show (Int.ceil ((REACH - tm) / td)).toNat ≤ 5
  have hle : (REACH - tm) / td ≤ 5 := by
    rw [div_le_iff₀ (by linarith)]
    unfold REACH
    nlinarith
  have hc : Int.ceil ((REACH - tm) / td) ≤ 5 := by
    have := Int.ceil_le_ceil hle
    simpa using this
  omega

theorem window_pick (a b1 b2 : ℚ) (oX oY oZ : Option ℚ)
    (h2 : a < REACH) (hb1 : a < b1) (hb2 : a < b2)
    (hx : ∀ q, oX = some q → a < q) (hy : ∀ q, oY = some q → a < q)
    (hz : ∀ q, oZ = some q → a < q) :
    ∃ t, a < t ∧ t < REACH ∧ t < b1 ∧ t < b2 ∧
      (∀ q, oX = some q → t < q) ∧ (∀ q, oY = some q → t < q) ∧
      (∀ q, oZ = some q → t < q) := by
  have hxv : a < oX.getD b1 := by
    cases oX with
    | none => simpa using hb1
    | some q => simpa using hx q rfl
  have hyv : a < oY.getD b1 := by
    cases oY with
    | none => simpa using hb1
    | some q => simpa using hy q rfl
  have hzv : a < oZ.getD b1 := by
    cases oZ with
    | none => simpa using hb1
    | some q => simpa using hz q rfl
  set M := min REACH (min b1 (min b2 (min (oX.getD b1) (min (oY.getD b1) (oZ.getD b1)))))
    with hM
  have hBound : a < M := by
    apply lt_min h2
    apply lt_min hb1
    apply lt_min hb2
    apply lt_min hxv
    exact lt_min hyv hzv
  have hm1 : M ≤ REACH := min_le_left _ _
  have hm2 : M ≤ b1 := le_trans (min_le_right _ _) (min_le_left _ _)
  have hm3 : M ≤ b2 := le_trans (min_le_right _ _)
    (le_trans (min_le_right _ _) (min_le_left _ _))
  have hm4 : M ≤ oX.getD b1 := le_trans (min_le_right _ _)
    (le_trans (min_le_right _ _) (le_trans (min_le_right _ _) (min_le_left _ _)))
  have hm5 : M ≤ oY.getD b1 := le_trans (min_le_right _ _)
    (le_trans (min_le_right _ _) (le_trans (min_le_right _ _)
      (le_trans (min_le_right _ _) (min_le_left _ _))))
  have hm6 : M ≤ oZ.getD b1 := le_trans (min_le_right _ _)
    (le_trans (min_le_right _ _) (le_trans (min_le_right _ _)
      (le_trans (min_le_right _ _) (min_le_right _ _))))
  refine ⟨(a + M) / 2, by linarith, by linarith, by linarith, by linarith, ?_, ?_, ?_⟩
  · intro q hq
    rw [hq] at hm4
    simp only [Option.getD_some] at hm4
    linarith
  · intro q hq
    rw [hq] at hm5
    simp only [Option.getD_some] at hm5
    linarith
  · intro q hq
    rw [hq] at hm6
    simp only [Option.getD_some] at hm6
    linarith

theorem axisInv_mono (pA dA : ℚ) (iA : ℤ) (tM : Option ℚ) (tCur tCur2 : ℚ)
    (h : AxisInv pA dA iA tM tCur) (hle : tCur ≤ tCur2)
    (hb : ∀ q, tM = some q → tCur2 ≤ q) : AxisInv pA dA iA tM tCur2 := by
  refine ⟨h.1, fun hpos => ?_, fun hneg => ?_⟩
  · obtain ⟨tm, htm, -, hcross, hin⟩ := h.2.1 hpos
    exact ⟨tm, htm, hb tm htm, hcross, by nlinarith⟩
  · obtain ⟨tm, htm, -, hcross, hin⟩ := h.2.2 hneg
    exact ⟨tm, htm, hb tm htm, hcross, by nlinarith⟩

theorem axis_boundary_at_tm (pA dA : ℚ) (iA : ℤ) (tM : Option ℚ) (tCur : ℚ)
    (h : AxisInv pA dA iA tM tCur) (tm : ℚ) (htm : tM = some tm) :
    AxisAtBoundary pA dA tm := by
  rcases lt_trichotomy dA 0 with hneg | hzero | hpos
  · obtain ⟨tm2, htm2, -, hcross, -⟩ := h.2.2 hneg
    rw [htm] at htm2
    have : tm = tm2 := Option.some.inj htm2
    subst this
    exact ⟨ne_of_lt hneg, iA, hcross⟩
  · obtain ⟨hnone, -⟩ := h.1 hzero
    rw [htm] at hnone
    exact absurd hnone (by simp)
  · obtain ⟨tm2, htm2, -, hcross, -⟩ := h.2.1 hpos
    rw [htm] at htm2
    have : tm = tm2 := Option.some.inj htm2
    subst this
    refine ⟨ne_of_gt hpos, iA + 1, ?_⟩
    push_cast
    exact hcross

theorem raySolid_of_hit (blockAt : ℤ → ℤ → ℤ → ℤ) (c : ℤ × ℤ × ℤ)
    (h : raycastHit (blockAt c.1 c.2.1 c.2.2) = true) : raySolid blockAt c :=
  (of_decide_eq_true h).2

theorem not_raySolid_of_miss (blockAt : ℤ → ℤ → ℤ → ℤ) (c : ℤ × ℤ × ℤ)
    (h : raycastHit (blockAt c.1 c.2.1 c.2.2) = false) : ¬ raySolid blockAt c := by
  intro hs
  have hs2 : 0 < blockAt c.1 c.2.1 c.2.2 := hs
  have := of_decide_eq_false h
  exact this ⟨by omega, hs2⟩

theorem axisInv_le_tm (pA dA : ℚ) (iA : ℤ) (tM : Option ℚ) (tCur tm : ℚ)
    (h : AxisInv pA dA iA tM tCur) (htm : tM = some tm) : tCur ≤ tm := by
  rcases lt_trichotomy dA 0 with hneg | hzero | hpos
  · obtain ⟨tm2, htm2, hle, -, -⟩ := h.2.2 hneg
    rw [htm] at htm2
    exact (Option.some.inj htm2) ▸ hle
  · rw [(h.1 hzero).1] at htm
    exact absurd htm (by simp)
  · obtain ⟨tm2, htm2, hle, -, -⟩ := h.2.1 hpos
    rw [htm] at htm2
    exact (Option.some.inj htm2) ▸ hle

theorem axisInv_dir_ne (pA dA : ℚ) (iA : ℤ) (tM : Option ℚ) (tCur tm : ℚ)
    (h : AxisInv pA dA iA tM tCur) (htm : tM = some tm) : dA ≠ 0 := by
  intro h0
  rw [(h.1 h0).1] at htm
  exact absurd htm (by simp)

theorem tie_strict (pA dA : ℚ) (iA : ℤ) (tMA : Option ℚ) (tCur tm : ℚ) (P : Prop)
    (hA : AxisInv pA dA iA tMA tCur) (hP : P)
    (hnot : ¬ (AxisAtBoundary pA dA tm ∧ P)) :
    ∀ q, tMA = some q → tm ≤ q → tm < q := by
  intro q hq hle
  rcases lt_or_eq_of_le hle with h | h
  · exact h
  · exfalso
    apply hnot
    have hb := axis_boundary_at_tm pA dA iA tMA tCur hA q hq
    subst h
    exact ⟨hb, hP⟩

theorem axisInv_step (pA dA : ℚ) (iA : ℤ) (tCur tm : ℚ)
    (h : AxisInv pA dA iA (some tm) tCur) :
    AxisInv pA dA (iA + stepOf dA) (some (tm + |1 / dA|)) tm := by
  rcases lt_trichotomy dA 0 with hneg | hzero | hpos
  · have hstep : stepOf dA = -1 := by rw [stepOf, if_neg (not_le.mpr hneg)]
    have habs : |1 / dA| = -(1 / dA) := abs_of_neg (one_div_neg.mpr hneg)
    obtain ⟨tm2, htm2, -, hcross, -⟩ := h.2.2 hneg
    obtain rfl : tm = tm2 := Option.some.inj htm2
    rw [hstep, habs]
    refine ⟨fun h0 => absurd h0 (ne_of_lt hneg), fun hp => absurd hp (not_lt.mpr (le_of_lt hneg)),
      fun _ => ⟨tm + -(1 / dA), rfl, ?_, ?_, ?_⟩⟩
    · have : 0 < -(1 / dA) := by
        rw [neg_pos]
        exact one_div_neg.mpr hneg
      linarith
    · push_cast
      have hd : dA ≠ 0 := ne_of_lt hneg
      field_simp
      nlinarith [hcross]
    · push_cast
      nlinarith [hcross]
  · exfalso
    obtain ⟨hnone, -⟩ := h.1 hzero
    exact absurd hnone (by simp)
  · have hstep : stepOf dA = 1 := by rw [stepOf, if_pos (le_of_lt hpos)]
    have habs : |1 / dA| = 1 / dA := abs_of_pos (one_div_pos.mpr hpos)
    obtain ⟨tm2, htm2, -, hcross, -⟩ := h.2.1 hpos
    obtain rfl : tm = tm2 := Option.some.inj htm2
    rw [hstep, habs]
    refine ⟨fun h0 => absurd h0 (ne_of_gt hpos),
      fun _ => ⟨tm + 1 / dA, rfl, ?_, ?_, ?_⟩,
      fun hn => absurd hn (not_lt.mpr (le_of_lt hpos))⟩
    · have : 0 < 1 / dA := one_div_pos.mpr hpos
      linarith
    · push_cast
      have hd : dA ≠ 0 := ne_of_gt hpos
      field_simp
      nlinarith [hcross]
    · push_cast
      nlinarith [hcross]

theorem oMin_le_left (a b : Option ℚ) (q : ℚ) (ha : a = some q) :
    ∃ m, oMin a b = some m ∧ m ≤ q := by
  subst ha
  cases b with
  | none => exact ⟨q, rfl, le_refl q⟩
  | some c => exact ⟨min q c, rfl, min_le_left _ _⟩

theorem oMin_le_right (a b : Option ℚ) (q : ℚ) (hb : b = some q) :
    ∃ m, oMin a b = some m ∧ m ≤ q := by
  subst hb
  cases a with
  | none => exact ⟨q, rfl, le_refl q⟩
  | some c => exact ⟨min c q, rfl, min_le_right _ _⟩

theorem loop_exit_bounds (tMX tMY tMZ : Option ℚ)
    (h : oLT (oMin tMX (oMin tMY tMZ)) (some REACH) = false) :
    (∀ q, tMX = some q → REACH ≤ q) ∧ (∀ q, tMY = some q → REACH ≤ q) ∧
      (∀ q, tMZ = some q → REACH ≤ q) := by
  refine ⟨fun q hq => ?_, fun q hq => ?_, fun q hq => ?_⟩
  · obtain ⟨m, hm, hle⟩ := oMin_le_left tMX (oMin tMY tMZ) q hq
    rw [hm] at h
    have hr : ¬ (m < REACH) := by simpa [oLT] using h
    linarith [not_lt.mp hr]
  · obtain ⟨m2, hm2, hle2⟩ := oMin_le_left tMY tMZ q hq
    obtain ⟨m, hm, hle⟩ := oMin_le_right tMX (oMin tMY tMZ) m2 hm2
    rw [hm] at h
    have hr : ¬ (m < REACH) := by simpa [oLT] using h
    linarith [not_lt.mp hr]
  · obtain ⟨m2, hm2, hle2⟩ := oMin_le_right tMY tMZ q hq
    obtain ⟨m, hm, hle⟩ := oMin_le_right tMX (oMin tMY tMZ) m2 hm2
    rw [hm] at h
    have hr : ¬ (m < REACH) := by simpa [oLT] using h
    linarith [not_lt.mp hr]

theorem hit_case_core (blockAt : ℤ → ℤ → ℤ → ℤ) (p d : V3)
    (c0 c1 : ℤ × ℤ × ℤ) (tCur tm te : ℚ)
    (h0 : 0 ≤ tCur) (hcm : tCur ≤ tm) (hmte : tm < te) (hteR : te < REACH)
    (hwin1 : ∀ s, tCur < s → s < tm → cellAt p d s = c0)
    (hwin2 : ∀ s, tm < s → s ≤ te → cellAt p d s = c1)
    (hbnd : tCur < tm → cellAt p d tm = c0 ∨ cellAt p d tm = c1)
    (hboot : tCur = tm → tCur = 0 ∧ c0 = cellAt p d 0)
    (hhist : ∀ t, 0 < t → t ≤ tCur →
        cellAt p d t = cellAt p d 0 ∨ ¬ raySolid blockAt (cellAt p d t))
    (hc0 : c0 = cellAt p d 0 ∨ ¬ raySolid blockAt c0)
    (hsolid : raySolid blockAt c1) :
    rayResultSpec blockAt p d (some (c1, c0)) := by
  have hte0 : 0 < te := lt_of_le_of_lt (le_trans h0 hcm) hmte
  have hcell_te : cellAt p d te = c1 := hwin2 te hmte (le_refl te)
  refine ⟨hsolid, ⟨te, hte0, hteR, hcell_te⟩, ?_, ?_⟩
  · intro t ht0 htR hsol hne
    rcases le_or_lt t tCur with h1 | h2
    · rcases hhist t ht0 h1 with h | h
      · exact absurd h hne
      · exact absurd hsol h
    · rcases lt_trichotomy t tm with h3 | h3 | h3
      · have hc := hwin1 t h2 h3
        rcases hc0 with hq | hq
        · exact absurd (hc.trans hq) hne
        · rw [hc] at hsol
          exact absurd hsol hq
      · subst h3
        rcases hbnd h2 with hq | hq
        · rcases hc0 with hw | hw
          · exact absurd (hq.trans hw) hne
          · rw [hq] at hsol
            exact absurd hsol hw
        · exact ⟨t, ht0, le_refl t, hq⟩
      · rcases le_or_lt t te with h4 | h4
        · exact ⟨t, ht0, le_refl t, hwin2 t h3 h4⟩
        · exact ⟨te, hte0, le_of_lt h4, hcell_te⟩
  · rcases lt_or_eq_of_le hcm with hlt | heq
    · refine ⟨(tCur + tm) / 2, te, by linarith, by linarith, hteR,
        hwin1 _ (by linarith) (by linarith), hcell_te, ?_⟩
      intro s hs1 hs2
      rcases lt_trichotomy s tm with h | h | h
      · exact Or.inl (hwin1 s (by linarith) h)
      · subst h
        exact hbnd hlt
      · exact Or.inr (hwin2 s h hs2)
    · obtain ⟨h00, hc00⟩ := hboot heq
      refine ⟨0, te, le_refl 0, hte0, hteR, hc00.symm, hcell_te, ?_⟩
      intro s hs1 hs2
      rcases lt_or_eq_of_le hs1 with h | h
      · exact Or.inr (hwin2 s (by rw [← heq, h00]; exact h) hs2)
      · rw [← h]
        exact Or.inl hc00.symm

theorem rayLoop_spec (blockAt : ℤ → ℤ → ℤ → ℤ) (p d : V3) (hnt : NoTie p d) :
    ∀ (fuel : ℕ) (ix iy iz : ℤ) (tMX tMY tMZ : Option ℚ) (tCur : ℚ),
      axisCount tMX (tdOf d.x) + axisCount tMY (tdOf d.y) +
          axisCount tMZ (tdOf d.z) < fuel →
      0 ≤ tCur → tCur < REACH →
      AxisInv p.x d.x ix tMX tCur → AxisInv p.y d.y iy tMY tCur →
      AxisInv p.z d.z iz tMZ tCur →
      (∀ t, 0 < t → t ≤ tCur →
        cellAt p d t = cellAt p d 0 ∨ ¬ raySolid blockAt (cellAt p d t)) →
      ((ix, iy, iz) = cellAt p d 0 ∨ ¬ raySolid blockAt (ix, iy, iz)) →
      ((AxisFlag p.x d.x tMX tCur ∨ AxisFlag p.y d.y tMY tCur ∨
          AxisFlag p.z d.z tMZ tCur) ∨ (tCur = 0 ∧ (ix, iy, iz) = cellAt p d 0)) →
      rayResultSpec blockAt p d
        (rayLoop blockAt (stepOf d.x) (stepOf d.y) (stepOf d.z)
          (tdOf d.x) (tdOf d.y) (tdOf d.z) fuel ix iy iz tMX tMY tMZ) := by
  intro fuel
  induction fuel with
  | zero =>
      intro ix iy iz tMX tMY tMZ tCur hfuel _ _ _ _ _ _ _ _
      exact absurd hfuel (Nat.not_lt_zero _)
  | succ fuel ih =>
      intro ix iy iz tMX tMY tMZ tCur hfuel H0 H5 HIx HIy HIz Hhist Hcur Hflag
      rw [rayLoop]
      by_cases hloop : oLT (oMin tMX (oMin tMY tMZ)) (some REACH) = true
      · rw [if_pos hloop]
        by_cases hb1 : (oLT tMX tMY && oLT tMX tMZ) = true
        · -- X branch
          rw [if_pos hb1]
          have hb1' : oLT tMX tMY = true ∧ oLT tMX tMZ = true := by
            rw [Bool.and_eq_true] at hb1
            exact hb1
          obtain ⟨tm, htmx, htmR, hqy, hqz⟩ :=
            rayBranchX tMX tMY tMZ hb1'.1 hb1'.2 hloop
          have hdx : d.x ≠ 0 := axisInv_dir_ne p.x d.x ix tMX tCur tm HIx htmx
          have hcmle : tCur ≤ tm := axisInv_le_tm p.x d.x ix tMX tCur tm HIx htmx
          have htd0 : (0 : ℚ) < |1 / d.x| := abs_pos.mpr (one_div_ne_zero hdx)
          have htdx : tdOf d.x = some |1 / d.x| := by rw [tdOf, if_neg hdx]
          have hXb : AxisAtBoundary p.x d.x tm :=
            axis_boundary_at_tm p.x d.x ix tMX tCur HIx tm htmx
          have htm0 : 0 ≤ tm := le_trans H0 hcmle
          have hdich : tCur < tm ∨ (tCur = 0 ∧ (ix, iy, iz) = cellAt p d 0) := by
            rcases lt_or_eq_of_le hcmle with hlt | heq
            · exact Or.inl hlt
            · rcases Hflag with (hf | hf | hf) | hf
              · obtain ⟨-, -, u, hu, hup⟩ := hf
                rw [htmx] at hu
                obtain rfl : tm = u := Option.some.inj hu
                exact absurd hup (by rw [heq]; exact lt_irrefl tm)
              · exfalso
                apply (hnt tCur H0 (le_of_lt H5)).1
                have hXb2 : AxisAtBoundary p.x d.x tCur := by rw [heq]; exact hXb
                exact ⟨hXb2, hf.1, hf.2.1⟩
              · exfalso
                apply (hnt tCur H0 (le_of_lt H5)).2.1
                have hXb2 : AxisAtBoundary p.x d.x tCur := by rw [heq]; exact hXb
                exact ⟨hXb2, hf.1, hf.2.1⟩
              · exact Or.inr hf
          have hwin1 : ∀ s, tCur < s → s < tm → cellAt p d s = (ix, iy, iz) := by
            intro s hs1 hs2
            exact cellAt_window p d ix iy iz tMX tMY tMZ tCur s HIx HIy HIz hs1
              (fun q hq => by rw [htmx] at hq; exact (Option.some.inj hq) ▸ hs2)
              (fun q hq => lt_trans hs2 (hqy q hq))
              (fun q hq => lt_trans hs2 (hqz q hq))
          have HIx' : AxisInv p.x d.x (ix + stepOf d.x) (some (tm + |1 / d.x|)) tm :=
            axisInv_step p.x d.x ix tCur tm (htmx ▸ HIx)
          have HIy' : AxisInv p.y d.y iy tMY tm :=
            axisInv_mono p.y d.y iy tMY tCur tm HIy hcmle
              (fun q hq => le_of_lt (hqy q hq))
          have HIz' : AxisInv p.z d.z iz tMZ tm :=
            axisInv_mono p.z d.z iz tMZ tCur tm HIz hcmle
              (fun q hq => le_of_lt (hqz q hq))
          obtain ⟨te, hte1, hteR2, hte3, -, -, hteY, hteZ⟩ :=
            window_pick tm (tm + |1 / d.x|) (tm + |1 / d.x|) none tMY tMZ htmR
              (by linarith) (by linarith)
              (fun q hq => Option.noConfusion hq) hqy hqz
          have hwin2 : ∀ s, tm < s → s ≤ te →
              cellAt p d s = (ix + stepOf d.x, iy, iz) := by
            intro s hs1 hs2
            exact cellAt_window p d (ix + stepOf d.x) iy iz (some (tm + |1 / d.x|))
              tMY tMZ tm s HIx' HIy' HIz' hs1
              (fun q hq => (Option.some.inj hq) ▸ (lt_of_le_of_lt hs2 hte3))
              (fun q hq => lt_of_le_of_lt hs2 (hteY q hq))
              (fun q hq => lt_of_le_of_lt hs2 (hteZ q hq))
          have hbnd : tCur < tm →
              cellAt p d tm = (ix, iy, iz) ∨
                cellAt p d tm = (ix + stepOf d.x, iy, iz) := by
            intro hct
            have hy := axisInv_floor p.y d.y iy tMY tCur tm HIy hct hqy
            have hz := axisInv_floor p.z d.z iz tMZ tCur tm HIz hct hqz
            rcases lt_or_gt_of_ne hdx with hneg | hpos
            · left
              obtain ⟨tm2, htm2, -, hcross, -⟩ := HIx.2.2 hneg
              rw [htmx] at htm2
              obtain rfl : tm = tm2 := Option.some.inj htm2
              unfold cellAt
              rw [hy, hz, floor_of_intCast_eq _ ix hcross]
            · right
              obtain ⟨tm2, htm2, -, hcross, -⟩ := HIx.2.1 hpos
              rw [htmx] at htm2
              obtain rfl : tm = tm2 := Option.some.inj htm2
              have hstep : stepOf d.x = 1 := by rw [stepOf, if_pos (le_of_lt hpos)]
              unfold cellAt
              rw [hy, hz, hstep,
                floor_of_intCast_eq _ (ix + 1) (by push_cast; linarith [hcross])]
          have hboot : tCur = tm → tCur = 0 ∧ (ix, iy, iz) = cellAt p d 0 := by
            intro heq
            rcases hdich with hlt | hinit
            · exact absurd heq (ne_of_lt hlt)
            · exact hinit
          by_cases hhit : raycastHit (blockAt (ix + stepOf d.x) iy iz) = true
          · rw [if_pos hhit]
            exact hit_case_core blockAt p d (ix, iy, iz) (ix + stepOf d.x, iy, iz)
              tCur tm te H0 hcmle hte1 hteR2 hwin1 hwin2 hbnd hboot Hhist Hcur
              (raySolid_of_hit blockAt (ix + stepOf d.x, iy, iz) hhit)
          · rw [if_neg hhit]
            have hmiss : raycastHit (blockAt (ix + stepOf d.x) iy iz) = false := by
              revert hhit
              cases raycastHit (blockAt (ix + stepOf d.x) iy iz) <;> simp
            have hnewx : oAdd tMX (tdOf d.x) = some (tm + |1 / d.x|) := by
              rw [htmx, htdx]
              rfl
            rw [hnewx]
            apply ih (ix + stepOf d.x) iy iz (some (tm + |1 / d.x|)) tMY tMZ tm
            · have hdec := axisCount_dec tm |1 / d.x| htd0 htmR
              rw [htmx, htdx] at hfuel
              rw [htdx]
              omega
            · exact htm0
            · exact htmR
            · exact HIx'
            · exact HIy'
            · exact HIz'
            · intro t ht0 htle
              rcases le_or_lt t tCur with h1 | h2
              · exact Hhist t ht0 h1
              · rcases lt_or_eq_of_le htle with h3 | h3
                · rw [hwin1 t h2 h3]
                  exact Hcur
                · subst h3
                  rcases hbnd h2 with hc | hc
                  · rw [hc]
                    exact Hcur
                  · rw [hc]
                    exact Or.inr (not_raySolid_of_miss blockAt _ hmiss)
            · exact Or.inr (not_raySolid_of_miss blockAt _ hmiss)
            · exact Or.inl (Or.inl ⟨hdx, hXb.2, tm + |1 / d.x|, rfl, by linarith⟩)
        · rw [if_neg hb1]
          have hb1f : (oLT tMX tMY && oLT tMX tMZ) = false := by
            revert hb1
            cases (oLT tMX tMY && oLT tMX tMZ) <;> simp
          by_cases hb2 : oLT tMY tMZ = true
          · -- Y branch
            rw [if_pos hb2]
            obtain ⟨tm, htmy, htmR, hqx, hqz⟩ :=
              rayBranchY tMX tMY tMZ hb1f hb2 hloop
            have hdy : d.y ≠ 0 := axisInv_dir_ne p.y d.y iy tMY tCur tm HIy htmy
            have hcmle : tCur ≤ tm := axisInv_le_tm p.y d.y iy tMY tCur tm HIy htmy
            have htd0 : (0 : ℚ) < |1 / d.y| := abs_pos.mpr (one_div_ne_zero hdy)
            have htdy : tdOf d.y = some |1 / d.y| := by rw [tdOf, if_neg hdy]
            have hYb : AxisAtBoundary p.y d.y tm :=
              axis_boundary_at_tm p.y d.y iy tMY tCur HIy tm htmy
            have htm0 : 0 ≤ tm := le_trans H0 hcmle
            have hqx' : ∀ q, tMX = some q → tm < q := fun q hq =>
              tie_strict p.x d.x ix tMX tCur tm (AxisAtBoundary p.y d.y tm) HIx hYb
                ((hnt tm htm0 (le_of_lt htmR)).1) q hq (hqx q hq)
            have hdich : tCur < tm ∨ (tCur = 0 ∧ (ix, iy, iz) = cellAt p d 0) := by
              rcases lt_or_eq_of_le hcmle with hlt | heq
              · exact Or.inl hlt
              · rcases Hflag with (hf | hf | hf) | hf
                · exfalso
                  apply (hnt tCur H0 (le_of_lt H5)).1
                  have hYb2 : AxisAtBoundary p.y d.y tCur := by rw [heq]; exact hYb
                  exact ⟨⟨hf.1, hf.2.1⟩, hYb2⟩
                · obtain ⟨-, -, u, hu, hup⟩ := hf
                  rw [htmy] at hu
                  obtain rfl : tm = u := Option.some.inj hu
                  exact absurd hup (by rw [heq]; exact lt_irrefl tm)
                · exfalso
                  apply (hnt tCur H0 (le_of_lt H5)).2.2
                  have hYb2 : AxisAtBoundary p.y d.y tCur := by rw [heq]; exact hYb
                  exact ⟨hYb2, hf.1, hf.2.1⟩
                · exact Or.inr hf
            have hwin1 : ∀ s, tCur < s → s < tm → cellAt p d s = (ix, iy, iz) := by
              intro s hs1 hs2
              exact cellAt_window p d ix iy iz tMX tMY tMZ tCur s HIx HIy HIz hs1
                (fun q hq => lt_trans hs2 (hqx' q hq))
                (fun q hq => by rw [htmy] at hq; exact (Option.some.inj hq) ▸ hs2)
                (fun q hq => lt_trans hs2 (hqz q hq))
            have HIy' : AxisInv p.y d.y (iy + stepOf d.y) (some (tm + |1 / d.y|)) tm :=
              axisInv_step p.y d.y iy tCur tm (htmy ▸ HIy)
            have HIx' : AxisInv p.x d.x ix tMX tm :=
              axisInv_mono p.x d.x ix tMX tCur tm HIx hcmle
                (fun q hq => le_of_lt (hqx' q hq))
            have HIz' : AxisInv p.z d.z iz tMZ tm :=
              axisInv_mono p.z d.z iz tMZ tCur tm HIz hcmle
                (fun q hq => le_of_lt (hqz q hq))
            obtain ⟨te, hte1, hteR2, hte3, -, hteX, -, hteZ⟩ :=
              window_pick tm (tm + |1 / d.y|) (tm + |1 / d.y|) tMX none tMZ htmR
                (by linarith) (by linarith)
                hqx' (fun q hq => Option.noConfusion hq) hqz
            have hwin2 : ∀ s, tm < s → s ≤ te →
                cellAt p d s = (ix, iy + stepOf d.y, iz) := by
              intro s hs1 hs2
              exact cellAt_window p d ix (iy + stepOf d.y) iz tMX
                (some (tm + |1 / d.y|)) tMZ tm s HIx' HIy' HIz' hs1
                (fun q hq => lt_of_le_of_lt hs2 (hteX q hq))
                (fun q hq => (Option.some.inj hq) ▸ (lt_of_le_of_lt hs2 hte3))
                (fun q hq => lt_of_le_of_lt hs2 (hteZ q hq))
            have hbnd : tCur < tm →
                cellAt p d tm = (ix, iy, iz) ∨
                  cellAt p d tm = (ix, iy + stepOf d.y, iz) := by
              intro hct
              have hx := axisInv_floor p.x d.x ix tMX tCur tm HIx hct hqx'
              have hz := axisInv_floor p.z d.z iz tMZ tCur tm HIz hct hqz
              rcases lt_or_gt_of_ne hdy with hneg | hpos
              · left
                obtain ⟨tm2, htm2, -, hcross, -⟩ := HIy.2.2 hneg
                rw [htmy] at htm2
                obtain rfl : tm = tm2 := Option.some.inj htm2
                unfold cellAt
                rw [hx, hz, floor_of_intCast_eq _ iy hcross]
              · right
                obtain ⟨tm2, htm2, -, hcross, -⟩ := HIy.2.1 hpos
                rw [htmy] at htm2
                obtain rfl : tm = tm2 := Option.some.inj htm2
                have hstep : stepOf d.y = 1 := by rw [stepOf, if_pos (le_of_lt hpos)]
                unfold cellAt
                rw [hx, hz, hstep,
                  floor_of_intCast_eq _ (iy + 1) (by push_cast; linarith [hcross])]
            have hboot : tCur = tm → tCur = 0 ∧ (ix, iy, iz) = cellAt p d 0 := by
              intro heq
              rcases hdich with hlt | hinit
              · exact absurd heq (ne_of_lt hlt)
              · exact hinit
            by_cases hhit : raycastHit (blockAt ix (iy + stepOf d.y) iz) = true
            · rw [if_pos hhit]
              exact hit_case_core blockAt p d (ix, iy, iz) (ix, iy + stepOf d.y, iz)
                tCur tm te H0 hcmle hte1 hteR2 hwin1 hwin2 hbnd hboot Hhist Hcur
                (raySolid_of_hit blockAt (ix, iy + stepOf d.y, iz) hhit)
            · rw [if_neg hhit]
              have hmiss : raycastHit (blockAt ix (iy + stepOf d.y) iz) = false := by
                revert hhit
                cases raycastHit (blockAt ix (iy + stepOf d.y) iz) <;> simp
              have hnewy : oAdd tMY (tdOf d.y) = some (tm + |1 / d.y|) := by
                rw [htmy, htdy]
                rfl
              rw [hnewy]
              apply ih ix (iy + stepOf d.y) iz tMX (some (tm + |1 / d.y|)) tMZ tm
              · have hdec := axisCount_dec tm |1 / d.y| htd0 htmR
                rw [htmy, htdy] at hfuel
                rw [htdy]
                omega
              · exact htm0
              · exact htmR
              · exact HIx'
              · exact HIy'
              · exact HIz'
              · intro t ht0 htle
                rcases le_or_lt t tCur with h1 | h2
                · exact Hhist t ht0 h1
                · rcases lt_or_eq_of_le htle with h3 | h3
                  · rw [hwin1 t h2 h3]
                    exact Hcur
                  · subst h3
                    rcases hbnd h2 with hc | hc
                    · rw [hc]
                      exact Hcur
                    · rw [hc]
                      exact Or.inr (not_raySolid_of_miss blockAt _ hmiss)
              · exact Or.inr (not_raySolid_of_miss blockAt _ hmiss)
              · exact Or.inl (Or.inr (Or.inl ⟨hdy, hYb.2, tm + |1 / d.y|, rfl,
                  by linarith⟩))
          · -- Z branch
            rw [if_neg hb2]
            have hb2f : oLT tMY tMZ = false := by
              revert hb2
              cases oLT tMY tMZ <;> simp
            obtain ⟨tm, htmz, htmR, hqx, hqy⟩ :=
              rayBranchZ tMX tMY tMZ hb1f hb2f hloop
            have hdz : d.z ≠ 0 := axisInv_dir_ne p.z d.z iz tMZ tCur tm HIz htmz
            have hcmle : tCur ≤ tm := axisInv_le_tm p.z d.z iz tMZ tCur tm HIz htmz
            have htd0 : (0 : ℚ) < |1 / d.z| := abs_pos.mpr (one_div_ne_zero hdz)
            have htdz : tdOf d.z = some |1 / d.z| := by rw [tdOf, if_neg hdz]
            have hZb : AxisAtBoundary p.z d.z tm :=
              axis_boundary_at_tm p.z d.z iz tMZ tCur HIz tm htmz
            have htm0 : 0 ≤ tm := le_trans H0 hcmle
            have hqx' : ∀ q, tMX = some q → tm < q := fun q hq =>
              tie_strict p.x d.x ix tMX tCur tm (AxisAtBoundary p.z d.z tm) HIx hZb
                ((hnt tm htm0 (le_of_lt htmR)).2.1) q hq (hqx q hq)
            have hqy' : ∀ q, tMY = some q → tm < q := fun q hq =>
              tie_strict p.y d.y iy tMY tCur tm (AxisAtBoundary p.z d.z tm) HIy hZb
                ((hnt tm htm0 (le_of_lt htmR)).2.2) q hq (hqy q hq)
            have hdich : tCur < tm ∨ (tCur = 0 ∧ (ix, iy, iz) = cellAt p d 0) := by
              rcases lt_or_eq_of_le hcmle with hlt | heq
              · exact Or.inl hlt
              · rcases Hflag with (hf | hf | hf) | hf
                · exfalso
                  apply (hnt tCur H0 (le_of_lt H5)).2.1
                  have hZb2 : AxisAtBoundary p.z d.z tCur := by rw [heq]; exact hZb
                  exact ⟨⟨hf.1, hf.2.1⟩, hZb2⟩
                · exfalso
                  apply (hnt tCur H0 (le_of_lt H5)).2.2
                  have hZb2 : AxisAtBoundary p.z d.z tCur := by rw [heq]; exact hZb
                  exact ⟨⟨hf.1, hf.2.1⟩, hZb2⟩
                · obtain ⟨-, -, u, hu, hup⟩ := hf
                  rw [htmz] at hu
                  obtain rfl : tm = u := Option.some.inj hu
                  exact absurd hup (by rw [heq]; exact lt_irrefl tm)
                · exact Or.inr hf
            have hwin1 : ∀ s, tCur < s → s < tm → cellAt p d s = (ix, iy, iz) := by
              intro s hs1 hs2
              exact cellAt_window p d ix iy iz tMX tMY tMZ tCur s HIx HIy HIz hs1
                (fun q hq => lt_trans hs2 (hqx' q hq))
                (fun q hq => lt_trans hs2 (hqy' q hq))
                (fun q hq => by rw [htmz] at hq; exact (Option.some.inj hq) ▸ hs2)
            have HIz' : AxisInv p.z d.z (iz + stepOf d.z) (some (tm + |1 / d.z|)) tm :=
              axisInv_step p.z d.z iz tCur tm (htmz ▸ HIz)
            have HIx' : AxisInv p.x d.x ix tMX tm :=
              axisInv_mono p.x d.x ix tMX tCur tm HIx hcmle
                (fun q hq => le_of_lt (hqx' q hq))
            have HIy' : AxisInv p.y d.y iy tMY tm :=
              axisInv_mono p.y d.y iy tMY tCur tm HIy hcmle
                (fun q hq => le_of_lt (hqy' q hq))
            obtain ⟨te, hte1, hteR2, hte3, -, hteX, hteY, -⟩ :=
              window_pick tm (tm + |1 / d.z|) (tm + |1 / d.z|) tMX tMY none htmR
                (by linarith) (by linarith)
                hqx' hqy' (fun q hq => Option.noConfusion hq)
            have hwin2 : ∀ s, tm < s → s ≤ te →
                cellAt p d s = (ix, iy, iz + stepOf d.z) := by
              intro s hs1 hs2
              exact cellAt_window p d ix iy (iz + stepOf d.z) tMX tMY
                (some (tm + |1 / d.z|)) tm s HIx' HIy' HIz' hs1
                (fun q hq => lt_of_le_of_lt hs2 (hteX q hq))
                (fun q hq => lt_of_le_of_lt hs2 (hteY q hq))
                (fun q hq => (Option.some.inj hq) ▸ (lt_of_le_of_lt hs2 hte3))
            have hbnd : tCur < tm →
                cellAt p d tm = (ix, iy, iz) ∨
                  cellAt p d tm = (ix, iy, iz + stepOf d.z) := by
              intro hct
              have hx := axisInv_floor p.x d.x ix tMX tCur tm HIx hct hqx'
              have hy := axisInv_floor p.y d.y iy tMY tCur tm HIy hct hqy'
              rcases lt_or_gt_of_ne hdz with hneg | hpos
              · left
                obtain ⟨tm2, htm2, -, hcross, -⟩ := HIz.2.2 hneg
                rw [htmz] at htm2
                obtain rfl : tm = tm2 := Option.some.inj htm2
                unfold cellAt
                rw [hx, hy, floor_of_intCast_eq _ iz hcross]
              · right
                obtain ⟨tm2, htm2, -, hcross, -⟩ := HIz.2.1 hpos
                rw [htmz] at htm2
                obtain rfl : tm = tm2 := Option.some.inj htm2
                have hstep : stepOf d.z = 1 := by rw [stepOf, if_pos (le_of_lt hpos)]
                unfold cellAt
                rw [hx, hy, hstep,
                  floor_of_intCast_eq _ (iz + 1) (by push_cast; linarith [hcross])]
            have hboot : tCur = tm → tCur = 0 ∧ (ix, iy, iz) = cellAt p d 0 := by
              intro heq
              rcases hdich with hlt | hinit
              · exact absurd heq (ne_of_lt hlt)
              · exact hinit
            by_cases hhit : raycastHit (blockAt ix iy (iz + stepOf d.z)) = true
            · rw [if_pos hhit]
              exact hit_case_core blockAt p d (ix, iy, iz) (ix, iy, iz + stepOf d.z)
                tCur tm te H0 hcmle hte1 hteR2 hwin1 hwin2 hbnd hboot Hhist Hcur
                (raySolid_of_hit blockAt (ix, iy, iz + stepOf d.z) hhit)
            · rw [if_neg hhit]
              have hmiss : raycastHit (blockAt ix iy (iz + stepOf d.z)) = false := by
                revert hhit
                cases raycastHit (blockAt ix iy (iz + stepOf d.z)) <;> simp
              have hnewz : oAdd tMZ (tdOf d.z) = some (tm + |1 / d.z|) := by
                rw [htmz, htdz]
                rfl
              rw [hnewz]
              apply ih ix iy (iz + stepOf d.z) tMX tMY (some (tm + |1 / d.z|)) tm
              · have hdec := axisCount_dec tm |1 / d.z| htd0 htmR
                rw [htmz, htdz] at hfuel
                rw [htdz]
                omega
              · exact htm0
              · exact htmR
              · exact HIx'
              · exact HIy'
              · exact HIz'
              · intro t ht0 htle
                rcases le_or_lt t tCur with h1 | h2
                · exact Hhist t ht0 h1
                · rcases lt_or_eq_of_le htle with h3 | h3
                  · rw [hwin1 t h2 h3]
                    exact Hcur
                  · subst h3
                    rcases hbnd h2 with hc | hc
                    · rw [hc]
                      exact Hcur
                    · rw [hc]
                      exact Or.inr (not_raySolid_of_miss blockAt _ hmiss)
              · exact Or.inr (not_raySolid_of_miss blockAt _ hmiss)
              · exact Or.inl (Or.inr (Or.inr ⟨hdz, hZb.2, tm + |1 / d.z|, rfl,
                  by linarith⟩))
      · rw [if_neg hloop]
        have hfalse : oLT (oMin tMX (oMin tMY tMZ)) (some REACH) = false := by
          revert hloop
          cases oLT (oMin tMX (oMin tMY tMZ)) (some REACH) <;> simp
        obtain ⟨hbx, hby, hbz⟩ := loop_exit_bounds tMX tMY tMZ hfalse
        intro t ht0 htR
        rcases le_or_lt t tCur with hle | hgt
        · exact Hhist t ht0 hle
        · have hcell : cellAt p d t = (ix, iy, iz) :=
            cellAt_window p d ix iy iz tMX tMY tMZ tCur t HIx HIy HIz hgt
              (fun q hq => lt_of_lt_of_le htR (hbx q hq))
              (fun q hq => lt_of_lt_of_le htR (hby q hq))
              (fun q hq => lt_of_lt_of_le htR (hbz q hq))
          rw [hcell]
          exact Hcur

theorem axisInv_init (pA dA : ℚ) : AxisInv pA dA ⌊pA⌋ (tmInit pA dA) 0 := by
  refine ⟨fun h0 => ⟨by rw [tmInit, if_pos h0], rfl⟩, fun hpos => ?_, fun hneg => ?_⟩
  · have habs : |dA| = dA := abs_of_pos hpos
    refine ⟨(1 - (pA - ⌊pA⌋)) / dA, ?_, ?_, ?_, ?_⟩
    · rw [tmInit, if_neg (ne_of_gt hpos), if_pos hpos, habs]
    · have h1 : pA < ⌊pA⌋ + 1 := Int.lt_floor_add_one pA
      exact le_of_lt (div_pos (by linarith) hpos)
    · have hd : dA ≠ 0 := ne_of_gt hpos
      rw [div_mul_cancel₀ _ hd]
      ring
    · simpa using Int.floor_le pA
  · have habs : |dA| = -dA := abs_of_neg hneg
    refine ⟨(pA - ⌊pA⌋) / -dA, ?_, ?_, ?_, ?_⟩
    · rw [tmInit, if_neg (ne_of_lt hneg), if_neg (not_lt.mpr (le_of_lt hneg)), habs]
    · exact div_nonneg (by linarith [Int.floor_le pA]) (by linarith)
    · have hd : dA ≠ 0 := ne_of_lt hneg
      have hd2 : -dA ≠ 0 := neg_ne_zero.mpr hd
      have h2 : (pA - ⌊pA⌋) / -dA * dA = -(pA - ⌊pA⌋) := by
        calc (pA - ⌊pA⌋) / -dA * dA
            = -((pA - ⌊pA⌋) / -dA * -dA) := by ring
          _ = -(pA - ⌊pA⌋) := by rw [div_mul_cancel₀ _ hd2]
      rw [h2]
      ring
    · have h1 : pA < ⌊pA⌋ + 1 := Int.lt_floor_add_one pA
      simpa using le_of_lt h1

theorem axisCount_init (pA dA : ℚ) (h : dA ^ 2 ≤ 1) :
    axisCount (tmInit pA dA) (tdOf dA) ≤ 5 := by
  by_cases h0 : dA = 0
  · rw [tmInit, if_pos h0, tdOf, if_pos h0]
    show (0 : ℕ) ≤ 5
    omega
  · rw [tmInit, if_neg h0, tdOf, if_neg h0]
    apply axisCount_le_five
    · apply div_nonneg
      · split_ifs with hpos
        · have h1 : pA < ⌊pA⌋ + 1 := Int.lt_floor_add_one pA
          linarith
        · have h1 : (⌊pA⌋ : ℚ) ≤ pA := Int.floor_le pA
          linarith
      · exact abs_nonneg _
    · have habs : |dA| ≤ 1 := by nlinarith [sq_abs dA, abs_nonneg dA]
      have hpos : (0 : ℚ) < |dA| := abs_pos.mpr h0
      rw [abs_div, abs_one, le_div_iff₀ hpos]
      linarith

theorem raycast_core_spec (blockAt : ℤ → ℤ → ℤ → ℤ) (p d : V3)
    (hunit : d.x ^ 2 + d.y ^ 2 + d.z ^ 2 = 1) (hnt : NoTie p d) :
    rayResultSpec blockAt p d (raycastCore blockAt p d) := by
  have hx2 : d.x ^ 2 ≤ 1 := by nlinarith [sq_nonneg d.y, sq_nonneg d.z]
  have hy2 : d.y ^ 2 ≤ 1 := by nlinarith [sq_nonneg d.x, sq_nonneg d.z]
  have hz2 : d.z ^ 2 ≤ 1 := by nlinarith [sq_nonneg d.x, sq_nonneg d.y]
  have hcell0 : ((⌊p.x⌋, ⌊p.y⌋, ⌊p.z⌋) : ℤ × ℤ × ℤ) = cellAt p d 0 := by
    unfold cellAt
    norm_num
  unfold raycastCore
  apply rayLoop_spec blockAt p d hnt 64 ⌊p.x⌋ ⌊p.y⌋ ⌊p.z⌋
    (tmInit p.x d.x) (tmInit p.y d.y) (tmInit p.z d.z) 0
  · have b1 := axisCount_init p.x d.x hx2
    have b2 := axisCount_init p.y d.y hy2
    have b3 := axisCount_init p.z d.z hz2
    omega
  · exact le_refl 0
  · rw [REACH]
    norm_num
  · exact axisInv_init p.x d.x
  · exact axisInv_init p.y d.y
  · exact axisInv_init p.z d.z
  · intro t ht0 htle
    exact absurd (lt_of_lt_of_le ht0 htle) (lt_irrefl 0)
  · exact Or.inl hcell0
  · exact Or.inr ⟨rfl, hcell0⟩

/-- C2 (amended): for every world, camera position and unit direction whose
ray does not pass exactly through a voxel edge or corner within reach (no
two moving axes cross voxel boundaries at the same parameter), the player's
raycast reports a hit at the first solid voxel entered within REACH, paired
with the voxel traversed immediately before it, and reports no target when
no solid voxel is entered within REACH. -/
theorem raycast_spec (w : World) (p d : V3)
    (hunit : d.x ^ 2 + d.y ^ 2 + d.z ^ 2 = 1) (hnt : NoTie p d) :
    raycastClaim w p d :=
  raycast_core_spec (fun a b c => w.getBlockWorld a b c) p d hunit hnt

/-- Witness for `raycast_spec`: the all-air one-chunk world, camera inside a
voxel, axis-aligned unit direction (only one axis moves, so no tie can
occur). -/
theorem raycast_spec_witness :
    raycastClaim oneChunkWorld ⟨1 / 2, 1 / 2, 1 / 2⟩ ⟨1, 0, 0⟩ :=
  raycast_spec oneChunkWorld ⟨1 / 2, 1 / 2, 1 / 2⟩ ⟨1, 0, 0⟩
    (by norm_num)
    (by
      intro t h0 hR
      exact ⟨fun h => h.2.1 rfl, fun h => h.2.1 rfl, fun h => h.1.1 rfl⟩)

end BoxWorld
